import Mathlib

/-!
# ActiveDrops: control and coupling logic of `Script/dropMove.c`

A shallow embedding of the driver script of the droplet simulation: the
start-up code (`main`), the `init`, `properties`, `outputs`, `logWriting` and
`end` events, and the properties the specification states about them.

## Modelling conventions

* A C `double` is a value of `Dbl`: a rational number, one of the two
  infinities, or NaN.  Sums, products and quotients of finite values are
  rounded as IEEE 754 binary64 rounds them: to a significand of 53 bits, to
  nearest, ties to even (`Dbl.round53`); a decimal literal such as `0.1` is the
  nearest such value (`Dbl.lit`).  The special values follow IEEE 754: NaN is
  absorbing, every ordered comparison with NaN is false, `0/0` and `inf - inf`
  are NaN.  Not represented: the bounded exponent range (overflow to an
  infinity, underflow, subnormal numbers), the sign of zero and the sign of
  NaN.
* The mesh is a list of cells; a `foreach` loop is a traversal of that list.
* The effects of an event are recorded as a list of `Act` values (calls of
  `fprintf`, `fopen`, `fclose`, `fflush`, `dump`, a failed `assert`).
* `sqrt` (C library) and `atof` (C library) are parameters of the definitions
  that call them.
-/

namespace ActiveDrops

/-! ## Doubles -/

/-- A C `double`: NaN, minus infinity, a finite value, or plus infinity. -/
inductive Dbl where
  | nan : Dbl
  | ninf : Dbl
  | fin (q : ℚ) : Dbl
  | pinf : Dbl
deriving DecidableEq

namespace Dbl

/-- Rounding to the nearest integer, ties to the even one. -/
def roundHalfEven (m : ℚ) : ℤ :=
  if m - ⌊m⌋ < 1/2 then ⌊m⌋
  else if 1/2 < m - ⌊m⌋ then ⌊m⌋ + 1
  else if ⌊m⌋ % 2 = 0 then ⌊m⌋ else ⌊m⌋ + 1

/-- The position of the leading bit of `n`, found in at most `fuel` halvings. -/
def leadingBit : Nat → Nat → Nat
  | 0, _ => 0
  | fuel + 1, n => if n < 2 then 0 else leadingBit fuel (n / 2) + 1

/-- The binary exponent of `q`, for `q` not 0: the integer `e` with
`2^e ≤ |q| < 2^(e+1)`. -/
def binade (q : ℚ) : ℤ :=
  if |q| < (2 : ℚ) ^
      ((leadingBit q.num.natAbs q.num.natAbs : ℤ) - (leadingBit q.den q.den : ℤ)) then
    (leadingBit q.num.natAbs q.num.natAbs : ℤ) - (leadingBit q.den q.den : ℤ) - 1
  else (leadingBit q.num.natAbs q.num.natAbs : ℤ) - (leadingBit q.den q.den : ℤ)

/-- Rounding to binary64 precision: the nearest number with a significand of
53 bits, ties to the even significand. -/
def round53 (q : ℚ) : ℚ :=
  if q = 0 then 0
  else
    (if q < 0 then -1 else 1) *
      ((roundHalfEven (|q| / (2 : ℚ) ^ (binade q - 52)) : ℚ) * (2 : ℚ) ^ (binade q - 52))

/-- A decimal literal of the source: the double nearest to `q`. -/
def lit (q : ℚ) : Dbl := fin (round53 q)

/-- The C comparison `a < b`; false when either side is NaN. -/
def lt : Dbl → Dbl → Bool
  | nan, _ => false
  | _, nan => false
  | ninf, ninf => false
  | ninf, _ => true
  | fin _, ninf => false
  | fin a, fin b => decide (a < b)
  | fin _, pinf => true
  | pinf, _ => false

/-- The C comparison `a > b`. -/
def gt (a b : Dbl) : Bool := lt b a

/-- The C comparison `a == b`; false when either side is NaN. -/
def eq : Dbl → Dbl → Bool
  | nan, _ => false
  | _, nan => false
  | ninf, ninf => true
  | fin a, fin b => decide (a = b)
  | pinf, pinf => true
  | _, _ => false

/-- The C comparison `a <= b`; false when either side is NaN. -/
def le (a b : Dbl) : Bool := lt a b || eq a b

/-- The C comparison `a >= b`; false when either side is NaN. -/
def ge (a b : Dbl) : Bool := le b a

/-- Unary minus. -/
def neg : Dbl → Dbl
  | nan => nan
  | ninf => pinf
  | fin a => fin (-a)
  | pinf => ninf

/-- The C sum `a + b`, rounded. -/
def add : Dbl → Dbl → Dbl
  | nan, _ => nan
  | _, nan => nan
  | fin a, fin b => fin (round53 (a + b))
  | fin _, ninf => ninf
  | fin _, pinf => pinf
  | ninf, pinf => nan
  | pinf, ninf => nan
  | ninf, _ => ninf
  | pinf, _ => pinf

/-- The C difference `a - b`. -/
def sub (a b : Dbl) : Dbl := add a (neg b)

/-- The product of an infinity (plus infinity when `positive`, minus infinity
otherwise) and the finite value `q`: NaN when `q = 0`, else the infinity whose
sign is the product of the signs. -/
def infTimes (positive : Bool) (q : ℚ) : Dbl :=
  if q = 0 then nan else if (0 < q) = positive then pinf else ninf

/-- The C product `a * b`, rounded. -/
def mul : Dbl → Dbl → Dbl
  | nan, _ => nan
  | _, nan => nan
  | fin a, fin b => fin (round53 (a * b))
  | fin a, pinf => infTimes true a
  | fin a, ninf => infTimes false a
  | pinf, fin b => infTimes true b
  | ninf, fin b => infTimes false b
  | pinf, pinf => pinf
  | ninf, ninf => pinf
  | pinf, ninf => ninf
  | ninf, pinf => ninf

/-- The C quotient `a / b`, rounded; a finite value over zero is an infinity,
`0/0` is NaN. -/
def div : Dbl → Dbl → Dbl
  | nan, _ => nan
  | _, nan => nan
  | fin a, fin b =>
      if b = 0 then (if a = 0 then nan else if 0 < a then pinf else ninf) else fin (round53 (a / b))
  | fin _, pinf => fin 0
  | fin _, ninf => fin 0
  | pinf, fin b => if 0 ≤ b then pinf else ninf
  | ninf, fin b => if 0 ≤ b then ninf else pinf
  | pinf, pinf => nan
  | pinf, ninf => nan
  | ninf, pinf => nan
  | ninf, ninf => nan

end Dbl

/-- The macro `sq(x)` of the engine headers: the square of `x`. -/
def sq (x : Dbl) : Dbl := Dbl.mul x x

/-- The macro `clamp(x,a,b)` of the engine headers:
`x < a ? a : x > b ? b : x`. -/
def clamp (x a b : Dbl) : Dbl :=
  if Dbl.lt x a then a else if Dbl.gt x b then b else x

/-! ## Effects -/

/-- The output streams the script writes to; `fp` is the handle of `log.dat`. -/
inductive Stream where
  | ferr : Stream
  | fp : Stream
  | stdout : Stream
deriving DecidableEq

/-- An argument of a `fprintf` call. -/
inductive Arg where
  | int (n : Nat) : Arg
  | dbl (v : Dbl) : Arg
deriving DecidableEq

/-- An observable action of an event. -/
inductive Act where
  | fprintf (s : Stream) (format : String) (args : List Arg) : Act
  | fopen (file : String) (mode : String) : Act
  | fclose : Act
  | fflush (s : Stream) : Act
  | dump (file : String) : Act
  | assertFail : Act
deriving DecidableEq

/-- How an event ends: it returns a value to the engine (non-zero stops the
run), or a failed `assert` aborts the process. -/
inductive EventStatus where
  | returned (r : Nat) : EventStatus
  | aborted : EventStatus
deriving DecidableEq

/-- The text written to standard output by a list of actions. -/
def stdoutOf : List Act → List String
  | [] => []
  | Act.fprintf Stream.stdout s _ :: rest => s :: stdoutOf rest
  | _ :: rest => stdoutOf rest

/-! ## The `logWriting` event: logging and classification (lines 174-198) -/

/-- The header line written at step 0. -/
def logHeader : String := "i t ke\n"

/-- The format of the row written at every step. -/
def logRowFormat : String := "%d %g %5.5e %5.5e\n"

/-- The arguments of the row written at every step. -/
def logRowArgs (i : Nat) (t ke dist : Dbl) : List Arg :=
  [Arg.int i, Arg.dbl t, Arg.dbl ke, Arg.dbl dist]

/-- Lines 175-186: what process `pid` writes to the log at step `i`. -/
def logActs (pid i : Nat) (t ke dist : Dbl) : List Act :=
  if pid = 0 then
    (if i = 0 then
      [Act.fprintf Stream.ferr logHeader [], Act.fopen "log.dat" "w",
       Act.fprintf Stream.fp logHeader [], Act.fclose]
     else []) ++
    [Act.fprintf Stream.ferr logRowFormat (logRowArgs i t ke dist),
     Act.fopen "log.dat" "a",
     Act.fprintf Stream.fp logRowFormat (logRowArgs i t ke dist),
     Act.fclose]
  else []

/-- Lines 174-198 of `logWriting`, after the reductions: logging, then the
displacement test, then the energy assertion. -/
def logWritingTail (pid i : Nat) (t ke dist : Dbl) : List Act × EventStatus :=
  if 10 < i && Dbl.ge dist (Dbl.fin 1) then
    (logActs pid i t ke dist ++
      (if pid = 0 then
        [Act.fprintf Stream.stdout "STATUS MOVED\n" [], Act.fflush Stream.stdout]
       else []),
     EventStatus.returned 1)
  else if 10 < i then
    if Dbl.lt ke (Dbl.fin 1000) then (logActs pid i t ke dist, EventStatus.returned 0)
    else (logActs pid i t ke dist ++ [Act.assertFail], EventStatus.aborted)
  else (logActs pid i t ke dist, EventStatus.returned 0)

/-! ## The mesh and the reductions of `logWriting` (lines 150-172) -/

/-- A mesh cell: its centre `(x, y)`, its size `Delta`, and the values of the
fields the script reads or writes there. -/
structure Cell where
  x : ℚ
  y : ℚ
  Delta : ℚ
  f : Dbl
  ux : Dbl
  uy : Dbl
  cL : Dbl
  sigmaf : Dbl
  d : Dbl
deriving DecidableEq

/-- The macro `rho(f)` of the two-phase solver of the engine:
`clamp(f,0.,1.)*(rho1 - rho2) + rho2`; `rho1` and `rho2` are the densities
assigned by `main`. -/
def rho (rho1 rho2 f : Dbl) : Dbl :=
  Dbl.add (Dbl.mul (clamp f (Dbl.fin 0) (Dbl.fin 1)) (Dbl.sub rho1 rho2)) rho2

/-- Lines 150-153: `ke += 0.5*rho(f[])*(sq(u.x[])+sq(u.y[]))*sq(Delta)` over all cells. -/
def kineticEnergy (rho1 rho2 : Dbl) (cells : List Cell) : Dbl :=
  cells.foldl
    (fun ke c =>
      Dbl.add ke
        (Dbl.mul
          (Dbl.mul (Dbl.mul (Dbl.fin (1/2)) (rho rho1 rho2 c.f))
            (Dbl.add (sq c.ux) (sq c.uy)))
          (sq (Dbl.fin c.Delta))))
    (Dbl.fin 0)

/-- Line 163: `sumv1 += clamp(f[], 0., 1.)*x` over all cells. -/
def sumv1 (cells : List Cell) : Dbl :=
  cells.foldl
    (fun s c => Dbl.add s (Dbl.mul (clamp c.f (Dbl.fin 0) (Dbl.fin 1)) (Dbl.fin c.x)))
    (Dbl.fin 0)

/-- Line 164: `sumv2 += clamp(f[], 0., 1.)*y` over all cells. -/
def sumv2 (cells : List Cell) : Dbl :=
  cells.foldl
    (fun s c => Dbl.add s (Dbl.mul (clamp c.f (Dbl.fin 0) (Dbl.fin 1)) (Dbl.fin c.y)))
    (Dbl.fin 0)

/-- Line 166: `sumf += clamp(f[], 0., 1.)` over all cells. -/
def sumf (cells : List Cell) : Dbl :=
  cells.foldl (fun s c => Dbl.add s (clamp c.f (Dbl.fin 0) (Dbl.fin 1))) (Dbl.fin 0)

/-- Line 169: `xcm1 = sumv1/sumf`. -/
def xcm1 (cells : List Cell) : Dbl := Dbl.div (sumv1 cells) (sumf cells)

/-- Line 170: `ycm2 = sumv2/sumf`. -/
def ycm2 (cells : List Cell) : Dbl := Dbl.div (sumv2 cells) (sumf cells)

/-- Line 172: `dist = sqrt(sq(xcm1) + sq(ycm2))`; `sqrtD` is the C library `sqrt`. -/
def dist (sqrtD : Dbl → Dbl) (cells : List Cell) : Dbl :=
  sqrtD (Dbl.add (sq (xcm1 cells)) (sq (ycm2 cells)))

/-- The event `logWriting (i++)` on process `pid` at step `i` and time `t`:
the reductions over the mesh, then logging and classification. -/
def logWriting (sqrtD : Dbl → Dbl) (rho1 rho2 : Dbl) (pid i : Nat) (t : Dbl)
    (cells : List Cell) : List Act × EventStatus :=
  logWritingTail pid i t (kineticEnergy rho1 rho2 cells) (dist sqrtD cells)

/-- A rational model of the C library `sqrt`, used to evaluate the script on
concrete meshes: exact on NaN, the infinities, negative arguments and zero,
and rounded down to a multiple of `1/den` elsewhere. -/
def sqrtModel : Dbl → Dbl
  | Dbl.nan => Dbl.nan
  | Dbl.ninf => Dbl.nan
  | Dbl.pinf => Dbl.pinf
  | Dbl.fin q =>
      if q < 0 then Dbl.nan
      else Dbl.fin ((Nat.sqrt (q.num.toNat * q.den) : ℚ) / q.den)

/-! ## The `end` event (lines 201-207) -/

/-- The event `end (t = tmax)`: process 0 prints `STATUS NOT_MOVED`, and the
event returns 1. -/
def endEvent (pid : Nat) : List Act × EventStatus :=
  ((if pid = 0 then
      [Act.fprintf Stream.stdout "STATUS NOT_MOVED\n" [], Act.fflush Stream.stdout]
    else []),
   EventStatus.returned 1)

/-! ## The driving loop -/

/-- What the engine hands to `logWriting` at one step: the time and the two
reduced quantities. -/
structure StepObs where
  t : Dbl
  ke : Dbl
  dist : Dbl
deriving DecidableEq

/-- How a run ends. `pending`: the given steps are exhausted and no event has
stopped the run yet. -/
inductive Outcome where
  | stoppedByLogWriting : Outcome
  | abortedByAssert : Outcome
  | stoppedByEnd : Outcome
  | pending : Outcome
deriving DecidableEq

/-- Modelled from the spec: the driving loop of the engine (`run()`, not part
of this repository), restricted to the two events that write to standard
output or end the run. At every step `logWriting` runs; a failed assertion
aborts the process; a non-zero return value stops the run at once; otherwise,
if the time of the step is `tmax`, the `end` event runs, and a non-zero return
value of it stops the run; otherwise the next step follows. -/
def run (pid : Nat) (tmax : Dbl) : Nat → List StepObs → List Act × Outcome
  | _, [] => ([], Outcome.pending)
  | i, o :: rest =>
    match logWritingTail pid i o.t o.ke o.dist with
    | (acts, EventStatus.aborted) => (acts, Outcome.abortedByAssert)
    | (acts, EventStatus.returned (_ + 1)) => (acts, Outcome.stoppedByLogWriting)
    | (acts, EventStatus.returned 0) =>
      if Dbl.eq o.t tmax then
        match endEvent pid with
        | (acts2, EventStatus.aborted) => (acts ++ acts2, Outcome.abortedByAssert)
        | (acts2, EventStatus.returned (_ + 1)) => (acts ++ acts2, Outcome.stoppedByEnd)
        | (acts2, EventStatus.returned 0) =>
          (acts ++ acts2 ++ (run pid tmax (i + 1) rest).1, (run pid tmax (i + 1) rest).2)
      else (acts ++ (run pid tmax (i + 1) rest).1, (run pid tmax (i + 1) rest).2)

/-- Whether step `i` with observation `o` ends a run: a displacement or energy
verdict after warmup, or the time `tmax`. -/
def endsRun (tmax : Dbl) (i : Nat) (o : StepObs) : Bool :=
  (decide (10 < i) && (Dbl.ge o.dist (Dbl.fin 1) || !Dbl.lt o.ke (Dbl.fin 1000)))
    || Dbl.eq o.t tmax

/-- Whether no step of `obs`, numbered from `i`, ends a run. -/
def noneEndsRun (tmax : Dbl) : Nat → List StepObs → Bool
  | _, [] => true
  | i, o :: rest => !endsRun tmax i o && noneEndsRun tmax (i + 1) rest

/-! ## The `init` and `properties` events (lines 102-121) -/

/-- The macro `Ca`, the literal `0.1`. -/
def Ca : Dbl := Dbl.lit (1/10)

/-- The macro `c0`. -/
def c0 : Dbl := Dbl.fin 0

/-- The right-hand side `1/Ca + 4*cL[]` of lines 109 and 119. -/
def tension (cL : Dbl) : Dbl :=
  Dbl.add (Dbl.div (Dbl.fin 1) Ca) (Dbl.mul (Dbl.fin 4) cL)

/-- The body of the `foreach` of the event `init (i = 0)`, in one cell. -/
def initCell (sqrtD : Dbl → Dbl) (c : Cell) : Cell :=
  { c with
    d := Dbl.sub (Dbl.fin 1) (sqrtD (Dbl.add (sq (Dbl.fin c.x)) (sq (Dbl.fin c.y))))
    ux := Dbl.fin 0
    uy := Dbl.fin 0
    cL := c0
    sigmaf := tension c0 }

/-- The event `init (i = 0)`. -/
def init (sqrtD : Dbl → Dbl) (cells : List Cell) : List Cell :=
  cells.map (initCell sqrtD)

/-- The body of the `foreach` of the event `properties (i++)`, in one cell. -/
def propertiesCell (c : Cell) : Cell :=
  { c with sigmaf := tension c.cL }

/-- The event `properties (i++)`. -/
def properties (cells : List Cell) : List Cell :=
  cells.map propertiesCell

/-! ## Start-up: `main` (lines 66-92) -/

/-- The macro `MAX_LEVEL`. -/
def MAX_LEVEL : Nat := 9

/-- The macro `Oh`. -/
def Oh : Dbl := Dbl.fin 1

/-- The macro `AcNum`. -/
def AcNum : Dbl := Dbl.fin 1

/-- The global variables `main` assigns before it calls `run()`. -/
structure Config where
  stokes : Bool
  L0 : Dbl
  X0 : Dbl
  Y0 : Dbl
  Pe : Dbl
  N : Nat
  rho1 : Dbl
  rho2 : Dbl
  tmax : Dbl
  mu1 : Dbl
  mu2 : Dbl
  cL_inverse : Bool
  cL_A : Dbl
  cL_D : Dbl
deriving DecidableEq

/-- The configuration `main` builds from the value `Pe` of its argument. -/
def configOf (Pe : Dbl) : Config :=
  { stokes := true
    L0 := Dbl.fin 10
    X0 := Dbl.mul (Dbl.fin (-1/2)) (Dbl.fin 10)
    Y0 := Dbl.mul (Dbl.fin (-1/2)) (Dbl.fin 10)
    Pe := Pe
    N := 1 <<< MAX_LEVEL
    rho1 := Dbl.div (Dbl.fin 4) (sq Oh)
    rho2 := Dbl.div (Dbl.fin 4) (sq Oh)
    tmax := Dbl.fin 50
    mu1 := Dbl.fin 1
    mu2 := Dbl.fin 1
    cL_inverse := true
    cL_A := AcNum
    cL_D := Dbl.div (Dbl.fin 1) Pe }

/-- What `main` does. `undefinedBehaviour`: `atof` is called on the null
pointer `argv[1]`. `startsRun`: `main` has assigned the configuration, issued
the two shell commands and called `run()`. -/
inductive MainResult where
  | undefinedBehaviour : MainResult
  | startsRun (cfg : Config) (commands : List String) : MainResult
deriving DecidableEq

/-- The function `main`; `atof` is the C library function, `argv` the argument
vector (`argv[0]` is the program name). -/
def main (atof : String → Dbl) (argv : List String) : MainResult :=
  match argv[1]? with
  | none => MainResult.undefinedBehaviour
  | some a =>
    MainResult.startsRun (configOf (atof a)) ["rm -rf intermediate", "mkdir -p intermediate"]

/-- The value of the digit character `c`. -/
def digitValue (c : Char) : Nat := c.toNat - 48

/-- The sign, the digits read as one natural number, and the number of digits
after the point, of a plain decimal literal (optional sign, digits, optional
fraction) at the start of `cs`. -/
def decimalParts (cs : List Char) : Bool × Nat × Nat :=
  let body := if cs.head? = some '-' ∨ cs.head? = some '+' then cs.tail else cs
  let ip := body.takeWhile Char.isDigit
  let rest := body.dropWhile Char.isDigit
  let fp := if rest.head? = some '.' then rest.tail.takeWhile Char.isDigit else []
  (decide (cs.head? = some '-'), (ip ++ fp).foldl (fun a c => 10 * a + digitValue c) 0, fp.length)

/-- A model of the C library `atof` on plain decimal literals, used to
evaluate `main` on concrete arguments: the double nearest to the decimal
value; text without leading digits converts to 0, as with `atof`. -/
def atofModel (s : String) : Dbl :=
  match decimalParts (s.data.dropWhile (fun c => c = ' ')) with
  | (negative, n, k) =>
    Dbl.lit (if negative then -((n : ℚ) / (10 ^ k : ℚ)) else (n : ℚ) / (10 ^ k : ℚ))

/-! ## The `outputs` event (lines 136-140) -/

/-- The macro `tsnap`, the literal `1e-1`. -/
def tsnap : Dbl := Dbl.lit (1/10)

/-- The value `tmax = 50.` assigned by `main`. -/
def tmax : Dbl := Dbl.fin 50

/-- Modelled from the spec: the times at which the engine fires an event
declared `(t = 0.; t += tsnap; t <= tmax)`: starting from `t`, while
`t <= tmax`, fire and add `tsnap`. `fuel` bounds the number of firings. -/
def eventTimes (tsnap tmax : Dbl) : Nat → Dbl → List Dbl
  | 0, _ => []
  | fuel + 1, t =>
    if Dbl.le t tmax then t :: eventTimes tsnap tmax fuel (Dbl.add t tsnap) else []

/-- The decimal digit `d` as a character. -/
def digitChar (d : Nat) : Char := Char.ofNat (48 + d % 10)

/-- The decimal text of `n / 10000` with four digits after the point. -/
def fixed4 (n : Nat) : List Char :=
  Nat.toDigits 10 (n / 10000) ++
    ['.', digitChar (n / 1000), digitChar (n / 100), digitChar (n / 10), digitChar n]

/-- Padding with blanks on the left up to width `w`. -/
def padLeft (w : Nat) (s : List Char) : List Char :=
  List.replicate (w - s.length) ' ' ++ s

/-- The conversion `%5.4f`: four digits after the point (the multiple of
`1/10000` nearest to the value, ties to the even digit), at least five
characters. The sign that the C library may print before `nan` is not
represented. -/
def format54f : Dbl → List Char
  | Dbl.nan => padLeft 5 "nan".data
  | Dbl.pinf => padLeft 5 "inf".data
  | Dbl.ninf => padLeft 5 "-inf".data
  | Dbl.fin q =>
    padLeft 5
      ((if q < 0 then ['-'] else []) ++ fixed4 (Int.toNat (Dbl.roundHalfEven (|q| * 10000))))

/-- Line 138: `sprintf (dumpFile, "intermediate/snapshot-%5.4f", t)`. -/
def dumpFile (t : Dbl) : String :=
  "intermediate/snapshot-" ++ String.mk (format54f t)

/-- The event `outputs`, fired at time `t`. -/
def outputs (t : Dbl) : List Act := [Act.dump (dumpFile t)]

/-- The order of `strcmp`: lexicographic by character code. -/
def lexLt : List Char → List Char → Bool
  | [], [] => false
  | [], _ :: _ => true
  | _ :: _, [] => false
  | a :: as, b :: bs =>
    if a.toNat < b.toNat then true
    else if a.toNat = b.toNat then lexLt as bs
    else false

/-- Shorter first, and `strcmp` order among texts of one length. -/
def shortlexLt (a b : List Char) : Bool :=
  decide (a.length < b.length) || (decide (a.length = b.length) && lexLt a b)

/-! ## The log schema -/

/-- Splitting a text at blanks and line ends; `cur` is the current word, reversed. -/
def wordsAux : List Char → List Char → List (List Char)
  | [], cur => if cur = [] then [] else [cur.reverse]
  | c :: cs, cur =>
    if c = ' ' ∨ c = '\n' then
      (if cur = [] then wordsAux cs [] else cur.reverse :: wordsAux cs [])
    else wordsAux cs (c :: cur)

/-- The words of a line. -/
def words (s : String) : List (List Char) := wordsAux s.data []

/-- The number of conversion specifications of a `printf` format. -/
def conversions : List Char → Nat
  | '%' :: '%' :: rest => conversions rest
  | '%' :: rest => 1 + conversions rest
  | _ :: rest => conversions rest
  | [] => 0

/-- The actions `acts` end with the print of `token` on standard output and
its flush, and nothing else in them writes to standard output. -/
def EndsWithToken (token : String) (acts : List Act) : Prop :=
  ∃ before, acts = before ++ [Act.fprintf Stream.stdout token [], Act.fflush Stream.stdout] ∧
    stdoutOf before = []

/-- Scenario data: `n` uneventful steps, step `k` at time `k/100`, with zero
kinetic energy and zero displacement. -/
def quietSteps (n : Nat) : List StepObs :=
  List.map (fun k : Nat => StepObs.mk (Dbl.fin ((k : ℚ) / 100)) (Dbl.fin 0) (Dbl.fin 0))
    (List.range n)

/-- Scenario data: a cell of size 1 centred at `(x, y)` with volume fraction
`f` and concentration `cL`, at rest, the other fields zero. -/
def cellAt (x y : ℚ) (f cL : Dbl) : Cell :=
  { x := x, y := y, Delta := 1, f := f, ux := Dbl.fin 0, uy := Dbl.fin 0, cL := cL,
    sigmaf := Dbl.fin 0, d := Dbl.fin 0 }

/-- The rational value of a finite double, 0 for NaN and the infinities. -/
def Dbl.toQ : Dbl → ℚ
  | Dbl.fin q => q
  | _ => 0

/-- The clamped volume fraction `clamp(f[], 0., 1.)` of a cell. -/
def clampedFraction (c : Cell) : Dbl := clamp c.f (Dbl.fin 0) (Dbl.fin 1)

/-- The snapshot times of a run that is not stopped early: the firing times of
`outputs`, with `tsnap = 1e-1` and `tmax = 50`. -/
def snapshotTimes : List Dbl := eventTimes tsnap tmax 501 (Dbl.fin 0)

/-- The characters of `intermediate/snapshot-` followed by the decimal `k/10`
with four digits after the point. -/
def tickName (k : Nat) : List Char :=
  "intermediate/snapshot-".data ++ padLeft 5 (fixed4 (1000 * k))

/-- The running sum `acc += w` over the terms `ws`, started at `a`, each
addition rounded. -/
def fsum (a : ℚ) (ws : List ℚ) : ℚ :=
  ws.foldl (fun acc w => Dbl.round53 (acc + w)) a

/-- The factor `1 + 2^-53` by which rounding can enlarge a magnitude. -/
def roundoffFactor : ℚ := 1 + 1 / 2 ^ 53

/-- Scenario data: a leaf cell of the finest level (size `10/512`) centred at
`(x, y)` with volume fraction `f`, at rest, the other fields zero. -/
def leafAt (x y : ℚ) (f : Dbl) : Cell :=
  { x := x, y := y, Delta := 10 / 512, f := f, ux := Dbl.fin 0, uy := Dbl.fin 0,
    cL := Dbl.fin 0, sigmaf := Dbl.fin 0, d := Dbl.fin 0 }

/-- Scenario data: two leaf cells of the finest level with volume fractions
`0.7` and `0.25`, followed by their mirror images through the origin. -/
def mirroredLeaves : List Cell :=
  [leafAt (325 / 512) (355 / 512) (Dbl.lit (7 / 10)),
   leafAt (115 / 512) (165 / 512) (Dbl.fin (1 / 4)),
   leafAt (-(325 / 512)) (-(355 / 512)) (Dbl.lit (7 / 10)),
   leafAt (-(115 / 512)) (-(165 / 512)) (Dbl.fin (1 / 4))]

/-- Whether each element of a list stands in the relation `r` to the next one. -/
def chainB (r : Dbl → Dbl → Bool) : List Dbl → Bool
  | [] => true
  | [_] => true
  | a :: b :: rest => r a b && chainB r (b :: rest)

/-- One pass over snapshot times `ts` and expected identifiers `names`: each
time is below `bound` and below the next time, its identifier is the
corresponding entry of `names`, and the final time is `final`. -/
def scheduleCheck (bound final : Dbl) : List Dbl → List (List Char) → Bool
  | [], [] => true
  | [t], [n] => Dbl.lt t bound && decide ((dumpFile t).data = n) && decide (t = final)
  | t :: t2 :: ts, n :: ns =>
    Dbl.lt t bound && decide ((dumpFile t).data = n) && Dbl.lt t t2 &&
      scheduleCheck bound final (t2 :: ts) ns
  | _, _ => false

/-! ## Basic facts -/

theorem stdoutOf_append (a b : List Act) : stdoutOf (a ++ b) = stdoutOf a ++ stdoutOf b := by
  induction a with
  | nil => rfl
  | cons x xs ih =>
    cases x with
    | fprintf s f args => cases s <;> simp [stdoutOf, ih]
    | fopen _ _ => simp [stdoutOf, ih]
    | fclose => simp [stdoutOf, ih]
    | fflush _ => simp [stdoutOf, ih]
    | dump _ => simp [stdoutOf, ih]
    | assertFail => simp [stdoutOf, ih]

theorem stdoutOf_logActs (pid i : Nat) (t ke dist : Dbl) :
    stdoutOf (logActs pid i t ke dist) = [] := by
  unfold logActs
  split
  · split <;> simp [stdoutOf]
  · rfl

theorem assertFail_not_mem_logActs (pid i : Nat) (t ke dist : Dbl) :
    Act.assertFail ∉ logActs pid i t ke dist := by
  unfold logActs
  split
  · split <;> simp
  · simp

/-! ## The three branches of `logWritingTail` -/

theorem logWritingTail_moved (pid i : Nat) (t ke dst : Dbl) (hi : 10 < i)
    (hd : Dbl.ge dst (Dbl.fin 1) = true) :
    logWritingTail pid i t ke dst =
      (logActs pid i t ke dst ++
        (if pid = 0 then
          [Act.fprintf Stream.stdout "STATUS MOVED\n" [], Act.fflush Stream.stdout]
         else []),
       EventStatus.returned 1) := by
  simp [logWritingTail, hi, hd]

theorem logWritingTail_abort (pid i : Nat) (t ke dst : Dbl) (hi : 10 < i)
    (hd : Dbl.ge dst (Dbl.fin 1) = false) (hk : Dbl.lt ke (Dbl.fin 1000) = false) :
    logWritingTail pid i t ke dst =
      (logActs pid i t ke dst ++ [Act.assertFail], EventStatus.aborted) := by
  simp [logWritingTail, hi, hd, hk]

theorem logWritingTail_continue (pid i : Nat) (t ke dst : Dbl)
    (h : i ≤ 10 ∨ (Dbl.ge dst (Dbl.fin 1) = false ∧ Dbl.lt ke (Dbl.fin 1000) = true)) :
    logWritingTail pid i t ke dst = (logActs pid i t ke dst, EventStatus.returned 0) := by
  rcases h with h | ⟨hd, hk⟩
  · have h1 : ¬ 10 < i := by omega
    simp [logWritingTail, h1]
  · by_cases hi : 10 < i <;> simp [logWritingTail, hi, hd, hk]

/-- For values that are not NaN, `a >= b` fails exactly when `a < b` holds. -/
theorem Dbl.ge_eq_false_iff_lt (a b : Dbl) (ha : a ≠ Dbl.nan) (hb : b ≠ Dbl.nan) :
    Dbl.ge a b = false ↔ Dbl.lt a b = true := by
  cases a <;> cases b <;>
    simp_all [Dbl.ge, Dbl.le, Dbl.lt, Dbl.eq]
  rename_i x y
  constructor
  · rintro ⟨h1, h2⟩
    exact lt_of_le_of_ne h1 (fun h => h2 h.symm)
  · intro h
    exact ⟨le_of_lt h, fun h2 => absurd h (by rw [h2]; exact lt_irrefl _)⟩

/-! ## C1: warmup grace period -/

/-- C1: at every step index `i <= 10`, whatever the kinetic energy and the
displacement (finite, infinite or NaN), `logWriting` returns 0 (the run
continues), writes nothing to standard output (no `STATUS MOVED`) and does not
fail the energy assertion; this holds for the classification stage on
arbitrary values and hence for the event on every mesh. -/
theorem warmup_grace_period (pid i : Nat) (t ke dst : Dbl) (h : i ≤ 10) :
    (logWritingTail pid i t ke dst).2 = EventStatus.returned 0 ∧
    stdoutOf (logWritingTail pid i t ke dst).1 = [] ∧
    Act.assertFail ∉ (logWritingTail pid i t ke dst).1 ∧
    (∀ (sqrtD : Dbl → Dbl) (rho1 rho2 : Dbl) (cells : List Cell),
      (logWriting sqrtD rho1 rho2 pid i t cells).2 = EventStatus.returned 0 ∧
      stdoutOf (logWriting sqrtD rho1 rho2 pid i t cells).1 = [] ∧
      Act.assertFail ∉ (logWriting sqrtD rho1 rho2 pid i t cells).1) := by
  have key : ∀ k d : Dbl, (logWritingTail pid i t k d).2 = EventStatus.returned 0 ∧
      stdoutOf (logWritingTail pid i t k d).1 = [] ∧
      Act.assertFail ∉ (logWritingTail pid i t k d).1 := by
    intro k d
    rw [logWritingTail_continue pid i t k d (Or.inl h)]
    exact ⟨rfl, stdoutOf_logActs _ _ _ _ _, assertFail_not_mem_logActs _ _ _ _ _⟩
  refine ⟨(key ke dst).1, (key ke dst).2.1, (key ke dst).2.2, ?_⟩
  intro sqrtD rho1 rho2 cells
  exact key _ _

/-- Witness of C1: step 10 with infinite kinetic energy and displacement. -/
theorem warmup_grace_period_witness :
    (10 ≤ 10) ∧
    (logWritingTail 0 10 (Dbl.fin 1) Dbl.pinf Dbl.pinf).2 = EventStatus.returned 0 ∧
    stdoutOf (logWritingTail 0 10 (Dbl.fin 1) Dbl.pinf Dbl.pinf).1 = [] ∧
    Act.assertFail ∉ (logWritingTail 0 10 (Dbl.fin 1) Dbl.pinf Dbl.pinf).1 :=
  ⟨le_refl 10,
   (warmup_grace_period 0 10 (Dbl.fin 1) Dbl.pinf Dbl.pinf (le_refl 10)).1,
   (warmup_grace_period 0 10 (Dbl.fin 1) Dbl.pinf Dbl.pinf (le_refl 10)).2.1,
   (warmup_grace_period 0 10 (Dbl.fin 1) Dbl.pinf Dbl.pinf (le_refl 10)).2.2.1⟩

/-! ## C2: classification after warmup -/

/-- C2, counterexample: at step 11 with a NaN displacement (what `0/0` gives
when the total fraction is zero) and kinetic energy 2000, the assertion fails
and the process aborts, although `dist < 1.0` is false. -/
theorem classification_counterexample :
    (logWritingTail 0 11 (Dbl.fin 1) (Dbl.fin 2000) Dbl.nan).2 = EventStatus.aborted ∧
    Dbl.lt Dbl.nan (Dbl.fin 1) = false ∧
    Dbl.ge (Dbl.fin 2000) (Dbl.fin 1000) = true := by
  have hk : Dbl.lt (Dbl.fin 2000) (Dbl.fin 1000) = false := by
    simp only [Dbl.lt, decide_eq_false_iff_not]
    norm_num
  refine ⟨?_, rfl, ?_⟩
  · rw [logWritingTail_abort 0 11 (Dbl.fin 1) (Dbl.fin 2000) Dbl.nan (by decide) rfl hk]
  · simp only [Dbl.ge, Dbl.le, Dbl.lt, Bool.or_eq_true, decide_eq_true_eq]
    left
    norm_num

/-- C2, amended: at every step index `i > 10`, `logWriting` returns 1 (MOVED)
exactly when `dist >= 1.0` holds, and then process 0 prints `STATUS MOVED`;
the assertion fails (FATAL_INVARIANT) exactly when `dist >= 1.0` does not hold
and `ke < 1e3` does not hold; it returns 0 (CONTINUE) exactly when
`dist >= 1.0` does not hold and `ke < 1e3` holds. For values that are not NaN
the assertion fails exactly when `dist < 1.0` and `ke >= 1e3`. When
`dist >= 1.0` and `ke >= 1e3` hold together, the result is MOVED. -/
theorem classification_after_warmup (pid i : Nat) (t ke dst : Dbl) (h : 10 < i) :
    ((logWritingTail pid i t ke dst).2 = EventStatus.returned 1 ↔
      Dbl.ge dst (Dbl.fin 1) = true) ∧
    (stdoutOf (logWritingTail pid i t ke dst).1 =
      if pid = 0 ∧ Dbl.ge dst (Dbl.fin 1) = true then ["STATUS MOVED\n"] else []) ∧
    ((logWritingTail pid i t ke dst).2 = EventStatus.aborted ↔
      (Dbl.ge dst (Dbl.fin 1) = false ∧ Dbl.lt ke (Dbl.fin 1000) = false)) ∧
    ((logWritingTail pid i t ke dst).2 = EventStatus.returned 0 ↔
      (Dbl.ge dst (Dbl.fin 1) = false ∧ Dbl.lt ke (Dbl.fin 1000) = true)) ∧
    (dst ≠ Dbl.nan → ke ≠ Dbl.nan →
      ((logWritingTail pid i t ke dst).2 = EventStatus.aborted ↔
        (Dbl.lt dst (Dbl.fin 1) = true ∧ Dbl.ge ke (Dbl.fin 1000) = true))) ∧
    (Dbl.ge dst (Dbl.fin 1) = true → Dbl.ge ke (Dbl.fin 1000) = true →
      (logWritingTail pid i t ke dst).2 = EventStatus.returned 1) := by
  have hab : (logWritingTail pid i t ke dst).2 = EventStatus.aborted ↔
      (Dbl.ge dst (Dbl.fin 1) = false ∧ Dbl.lt ke (Dbl.fin 1000) = false) := by
    cases hd : Dbl.ge dst (Dbl.fin 1) <;> cases hk : Dbl.lt ke (Dbl.fin 1000) <;>
      simp [logWritingTail, h, hd, hk]
  refine ⟨?_, ?_, hab, ?_, ?_, ?_⟩
  · cases hd : Dbl.ge dst (Dbl.fin 1) <;> cases hk : Dbl.lt ke (Dbl.fin 1000) <;>
      simp [logWritingTail, h, hd, hk]
  · cases hd : Dbl.ge dst (Dbl.fin 1)
    · cases hk : Dbl.lt ke (Dbl.fin 1000)
      · rw [logWritingTail_abort pid i t ke dst h hd hk]
        simp [stdoutOf_append, stdoutOf_logActs, stdoutOf]
      · rw [logWritingTail_continue pid i t ke dst (Or.inr ⟨hd, hk⟩)]
        simp [stdoutOf_logActs]
    · rw [logWritingTail_moved pid i t ke dst h hd]
      by_cases hp : pid = 0 <;> simp [stdoutOf_append, stdoutOf_logActs, stdoutOf, hp]
  · cases hd : Dbl.ge dst (Dbl.fin 1) <;> cases hk : Dbl.lt ke (Dbl.fin 1000) <;>
      simp [logWritingTail, h, hd, hk]
  · intro hdn hkn
    have hk := Dbl.ge_eq_false_iff_lt ke (Dbl.fin 1000) hkn (by simp)
    rw [hab, Dbl.ge_eq_false_iff_lt dst (Dbl.fin 1) hdn (by simp)]
    cases hg : Dbl.ge ke (Dbl.fin 1000) <;> cases hl : Dbl.lt ke (Dbl.fin 1000) <;>
      simp_all
  · intro hd _
    rw [logWritingTail_moved pid i t ke dst h hd]

/-- Witness of C2: step 11, displacement 2 and kinetic energy 2000 (both
thresholds reached, MOVED wins); the values are not NaN, so the assertion
fails exactly when `dist < 1.0` and `ke >= 1e3`. -/
theorem classification_after_warmup_witness :
    (10 < 11) ∧
    (logWritingTail 0 11 (Dbl.fin 1) (Dbl.fin 2000) (Dbl.fin 2)).2 = EventStatus.returned 1 ∧
    stdoutOf (logWritingTail 0 11 (Dbl.fin 1) (Dbl.fin 2000) (Dbl.fin 2)).1 =
      ["STATUS MOVED\n"] ∧
    Dbl.fin 2 ≠ Dbl.nan ∧ Dbl.fin 2000 ≠ Dbl.nan ∧
    ((logWritingTail 0 11 (Dbl.fin 1) (Dbl.fin 2000) (Dbl.fin 2)).2 = EventStatus.aborted ↔
      (Dbl.lt (Dbl.fin 2) (Dbl.fin 1) = true ∧
        Dbl.ge (Dbl.fin 2000) (Dbl.fin 1000) = true)) := by
  have hd : Dbl.ge (Dbl.fin 2) (Dbl.fin 1) = true := by
    simp [Dbl.ge, Dbl.le, Dbl.lt, Dbl.eq]
  have hw := classification_after_warmup 0 11 (Dbl.fin 1) (Dbl.fin 2000) (Dbl.fin 2)
    (by decide)
  refine ⟨by decide, hw.1.mpr hd, ?_, by simp, by simp, hw.2.2.2.2.1 (by simp) (by simp)⟩
  rw [hw.2.1]
  simp [hd]

/-! ## The driving loop, step by step -/

theorem run_cons (pid : Nat) (tmx : Dbl) (i : Nat) (o : StepObs) (rest : List StepObs) :
    run pid tmx i (o :: rest) =
      if 10 < i ∧ Dbl.ge o.dist (Dbl.fin 1) = true then
        (logActs pid i o.t o.ke o.dist ++
          (if pid = 0 then
            [Act.fprintf Stream.stdout "STATUS MOVED\n" [], Act.fflush Stream.stdout]
           else []),
         Outcome.stoppedByLogWriting)
      else if 10 < i ∧ Dbl.lt o.ke (Dbl.fin 1000) = false then
        (logActs pid i o.t o.ke o.dist ++ [Act.assertFail], Outcome.abortedByAssert)
      else if Dbl.eq o.t tmx = true then
        (logActs pid i o.t o.ke o.dist ++ (endEvent pid).1, Outcome.stoppedByEnd)
      else
        (logActs pid i o.t o.ke o.dist ++ (run pid tmx (i + 1) rest).1,
         (run pid tmx (i + 1) rest).2) := by
  by_cases hi : 10 < i
  · cases hd : Dbl.ge o.dist (Dbl.fin 1)
    · cases hk : Dbl.lt o.ke (Dbl.fin 1000)
      · simp [run, logWritingTail, hi, hd, hk]
      · cases ht : Dbl.eq o.t tmx <;> simp [run, logWritingTail, endEvent, hi, hd, hk, ht]
    · simp [run, logWritingTail, hi, hd]
  · cases ht : Dbl.eq o.t tmx <;> simp [run, logWritingTail, endEvent, hi, ht]

theorem endsWithToken_append (token : String) (a b : List Act) (ha : stdoutOf a = [])
    (hb : EndsWithToken token b) : EndsWithToken token (a ++ b) := by
  obtain ⟨before, hb1, hb2⟩ := hb
  refine ⟨a ++ before, ?_, ?_⟩
  · rw [hb1, List.append_assoc]
  · rw [stdoutOf_append, ha, hb2]
    rfl

theorem endsWithToken_self (token : String) :
    EndsWithToken token [Act.fprintf Stream.stdout token [], Act.fflush Stream.stdout] :=
  ⟨[], rfl, rfl⟩

/-- What a run of process 0 leaves on standard output, by outcome. -/
theorem run_stdout (tmx : Dbl) (obs : List StepObs) :
    ∀ i : Nat,
      ((run 0 tmx i obs).2 = Outcome.stoppedByLogWriting →
        EndsWithToken "STATUS MOVED\n" (run 0 tmx i obs).1) ∧
      ((run 0 tmx i obs).2 = Outcome.stoppedByEnd →
        EndsWithToken "STATUS NOT_MOVED\n" (run 0 tmx i obs).1) ∧
      ((run 0 tmx i obs).2 = Outcome.abortedByAssert →
        stdoutOf (run 0 tmx i obs).1 = [] ∧
        ∃ before, (run 0 tmx i obs).1 = before ++ [Act.assertFail]) ∧
      ((run 0 tmx i obs).2 = Outcome.pending → stdoutOf (run 0 tmx i obs).1 = []) := by
  induction obs with
  | nil => intro i; simp [run, stdoutOf]
  | cons o rest ih =>
    intro i
    rw [run_cons]
    have hl := stdoutOf_logActs 0 i o.t o.ke o.dist
    split
    · simp only [if_true, reduceCtorEq, false_imp_iff, true_imp_iff, and_true, true_and]
      exact endsWithToken_append _ _ _ hl (endsWithToken_self _)
    · split
      · simp only [reduceCtorEq, false_imp_iff, true_imp_iff, and_true, true_and]
        exact ⟨by simp [stdoutOf_append, hl, stdoutOf], _, rfl⟩
      · split
        · simp only [endEvent, if_true, reduceCtorEq, false_imp_iff, true_imp_iff, and_true,
            true_and]
          exact endsWithToken_append _ _ _ hl (endsWithToken_self _)
        · obtain ⟨h1, h2, h3, h4⟩ := ih (i + 1)
          refine ⟨fun h => endsWithToken_append _ _ _ hl (h1 h),
            fun h => endsWithToken_append _ _ _ hl (h2 h), fun h => ?_, fun h => ?_⟩
          · obtain ⟨h5, before, h6⟩ := h3 h
            refine ⟨by simp [stdoutOf_append, hl, h5], logActs 0 i o.t o.ke o.dist ++ before, ?_⟩
            simp only [h6, List.append_assoc]
          · simp [stdoutOf_append, hl, h4 h]

/-- A run is pending exactly when none of the given steps ends it. -/
theorem run_pending_iff (pid : Nat) (tmx : Dbl) (obs : List StepObs) :
    ∀ i : Nat, (run pid tmx i obs).2 = Outcome.pending ↔ noneEndsRun tmx i obs = true := by
  induction obs with
  | nil => intro i; simp [run, noneEndsRun]
  | cons o rest ih =>
    intro i
    rw [run_cons]
    by_cases hi : 10 < i <;> cases hd : Dbl.ge o.dist (Dbl.fin 1) <;>
      cases hk : Dbl.lt o.ke (Dbl.fin 1000) <;> cases ht : Dbl.eq o.t tmx <;>
      simp [noneEndsRun, endsRun, hi, hd, hk, ht, ih (i + 1)]

theorem stdoutOf_of_endsWithToken (token : String) (acts : List Act)
    (h : EndsWithToken token acts) : stdoutOf acts = [token] := by
  obtain ⟨before, h1, h2⟩ := h
  rw [h1, stdoutOf_append, h2]
  rfl

/-- Steps that do not end the run are passed over: outcome and standard output
are those of the run continued after them. -/
theorem run_append_quiet (pid : Nat) (tmx : Dbl) (pre rest : List StepObs) :
    ∀ i : Nat, noneEndsRun tmx i pre = true →
      (run pid tmx i (pre ++ rest)).2 = (run pid tmx (i + pre.length) rest).2 ∧
      stdoutOf (run pid tmx i (pre ++ rest)).1 =
        stdoutOf (run pid tmx (i + pre.length) rest).1 := by
  induction pre with
  | nil => intro i _; simp
  | cons o pre ih =>
    intro i h
    simp only [noneEndsRun, endsRun, Bool.and_eq_true, Bool.not_eq_true', Bool.or_eq_false_iff,
      Bool.and_eq_false_iff, decide_eq_false_iff_not, Bool.not_eq_false'] at h
    obtain ⟨⟨h1, h2⟩, h3⟩ := h
    have e : i + (o :: pre).length = i + 1 + pre.length := by simp; omega
    rw [List.cons_append, run_cons, e]
    have c1 : ¬ (10 < i ∧ Dbl.ge o.dist (Dbl.fin 1) = true) := by
      rintro ⟨a, b⟩
      rcases h1 with h1 | h1
      · exact h1 a
      · rw [h1.1] at b; cases b
    have c2 : ¬ (10 < i ∧ Dbl.lt o.ke (Dbl.fin 1000) = false) := by
      rintro ⟨a, b⟩
      rcases h1 with h1 | h1
      · exact h1 a
      · rw [h1.2] at b; cases b
    have c3 : ¬ (Dbl.eq o.t tmx = true) := by simp [h2]
    rw [if_neg c1, if_neg c2, if_neg c3]
    obtain ⟨i1, i2⟩ := ih (i + 1) h3
    exact ⟨i1, by simp [stdoutOf_append, stdoutOf_logActs, i2]⟩

/-- During warmup only the time `tmax` can end the run. -/
theorem noneEndsRun_warmup (tmx : Dbl) (pre : List StepObs) :
    ∀ i : Nat, i + pre.length ≤ 11 → (∀ p ∈ pre, Dbl.eq p.t tmx = false) →
      noneEndsRun tmx i pre = true := by
  induction pre with
  | nil => intro i _ _; rfl
  | cons o pre ih =>
    intro i hl hp
    have hi : ¬ 10 < i := by simp at hl; omega
    have ht := hp o (List.mem_cons_self _ _)
    have := ih (i + 1) (by simp at hl ⊢; omega) (fun p hp2 => hp p (List.mem_cons_of_mem _ hp2))
    simp [noneEndsRun, endsRun, hi, ht, this]

theorem noneEndsRun_quietSteps : noneEndsRun tmax 0 (quietSteps 11) = true := by
  apply noneEndsRun_warmup
  · simp [quietSteps]
  · intro p hp
    simp only [quietSteps, List.mem_map, List.mem_range] at hp
    obtain ⟨k, hk, rfl⟩ := hp
    have h50 : ¬ ((k : ℚ) / 100 = 50) := by
      intro h
      have h2 : (k : ℚ) = 5000 := by linarith
      have h3 : k = 5000 := by exact_mod_cast h2
      omega
    simp [Dbl.eq, tmax, h50]

theorem Dbl.lt_false_of_gt (a b : Dbl) (h : Dbl.gt a b = true) : Dbl.lt a b = false := by
  cases a <;> cases b <;> simp_all [Dbl.gt, Dbl.lt]
  exact le_of_lt h

/-! ## C3: energy bound exceeded at step 11 -/

/-- C3, counterexample: eleven uneventful steps, then step 11 with kinetic
energy 2000 and displacement 2: the run is stopped by `logWriting` returning 1
after printing `STATUS MOVED`; the assertion is not reached. -/
theorem energy_at_step_11_counterexample :
    Dbl.gt (Dbl.fin 2000) (Dbl.fin 1000) = true ∧
    Dbl.gt (Dbl.fin 2) (Dbl.fin 1) = true ∧
    (run 0 tmax 0
      (quietSteps 11 ++ [StepObs.mk (Dbl.fin (11/100)) (Dbl.fin 2000) (Dbl.fin 2)])).2 =
        Outcome.stoppedByLogWriting ∧
    stdoutOf (run 0 tmax 0
      (quietSteps 11 ++ [StepObs.mk (Dbl.fin (11/100)) (Dbl.fin 2000) (Dbl.fin 2)])).1 =
        ["STATUS MOVED\n"] := by
  have hq := run_append_quiet 0 tmax (quietSteps 11)
    [StepObs.mk (Dbl.fin (11/100)) (Dbl.fin 2000) (Dbl.fin 2)] 0 noneEndsRun_quietSteps
  have hlen : 0 + (quietSteps 11).length = 11 := by simp [quietSteps]
  rw [hlen] at hq
  have hd : Dbl.ge (Dbl.fin 2) (Dbl.fin 1) = true := by simp [Dbl.ge, Dbl.le, Dbl.lt, Dbl.eq]
  refine ⟨by simp [Dbl.gt, Dbl.lt]; norm_num, by simp [Dbl.gt, Dbl.lt], ?_, ?_⟩
  · rw [hq.1, run_cons]
    simp [hd]
  · rw [hq.2, run_cons]
    simp [hd, stdoutOf_append, stdoutOf_logActs, stdoutOf]

/-- C3, amended: when the run reaches step 11 (no earlier step is at time
`tmax`) and the kinetic energy at step 11 exceeds 1e3, then: if
`dist >= 1.0` does not hold at that step, the assertion fails, the process
aborts and nothing is written to standard output (FATAL_INVARIANT, not
MOVED); if `dist >= 1.0` holds at that step, `logWriting` stops the run with
the MOVED verdict. -/
theorem energy_at_step_11 (pid : Nat) (tmx : Dbl) (pre : List StepObs) (o : StepObs)
    (rest : List StepObs) (hlen : pre.length = 11)
    (hpre : ∀ p ∈ pre, Dbl.eq p.t tmx = false)
    (hke : Dbl.gt o.ke (Dbl.fin 1000) = true) :
    (Dbl.ge o.dist (Dbl.fin 1) = false →
      (run pid tmx 0 (pre ++ o :: rest)).2 = Outcome.abortedByAssert ∧
      stdoutOf (run pid tmx 0 (pre ++ o :: rest)).1 = []) ∧
    (Dbl.ge o.dist (Dbl.fin 1) = true →
      (run pid tmx 0 (pre ++ o :: rest)).2 = Outcome.stoppedByLogWriting ∧
      stdoutOf (run pid tmx 0 (pre ++ o :: rest)).1 =
        if pid = 0 then ["STATUS MOVED\n"] else []) := by
  have hq := run_append_quiet pid tmx pre (o :: rest) 0
    (noneEndsRun_warmup tmx pre 0 (by omega) hpre)
  have e : 0 + pre.length = 11 := by omega
  rw [e] at hq
  have hk := Dbl.lt_false_of_gt _ _ hke
  rw [hq.1, hq.2, run_cons]
  constructor
  · intro hd
    simp [hd, hk, stdoutOf_append, stdoutOf_logActs, stdoutOf]
  · intro hd
    by_cases hp : pid = 0 <;> simp [hd, hp, stdoutOf_append, stdoutOf_logActs, stdoutOf]

/-- Witness of C3: eleven uneventful steps, then kinetic energy 2000 and
displacement 0 at step 11. -/
theorem energy_at_step_11_witness :
    (quietSteps 11).length = 11 ∧
    (∀ p ∈ quietSteps 11, Dbl.eq p.t tmax = false) ∧
    Dbl.gt (Dbl.fin 2000) (Dbl.fin 1000) = true ∧
    Dbl.ge (Dbl.fin 0) (Dbl.fin 1) = false ∧
    (run 0 tmax 0
      (quietSteps 11 ++ StepObs.mk (Dbl.fin (11/100)) (Dbl.fin 2000) (Dbl.fin 0) :: [])).2 =
        Outcome.abortedByAssert ∧
    stdoutOf (run 0 tmax 0
      (quietSteps 11 ++ StepObs.mk (Dbl.fin (11/100)) (Dbl.fin 2000) (Dbl.fin 0) :: [])).1 =
        [] := by
  have hlen : (quietSteps 11).length = 11 := by simp [quietSteps]
  have hpre : ∀ p ∈ quietSteps 11, Dbl.eq p.t tmax = false := by
    intro p hp
    simp only [quietSteps, List.mem_map, List.mem_range] at hp
    obtain ⟨k, hk, rfl⟩ := hp
    have h50 : ¬ ((k : ℚ) / 100 = 50) := by
      intro h
      have h2 : (k : ℚ) = 5000 := by linarith
      have h3 : k = 5000 := by exact_mod_cast h2
      omega
    simp [Dbl.eq, tmax, h50]
  have hke : Dbl.gt (Dbl.fin 2000) (Dbl.fin 1000) = true := by simp [Dbl.gt, Dbl.lt]; norm_num
  have hd : Dbl.ge (Dbl.fin 0) (Dbl.fin 1) = false := by simp [Dbl.ge, Dbl.le, Dbl.lt, Dbl.eq]
  exact ⟨hlen, hpre, hke, hd,
    (energy_at_step_11 0 tmax (quietSteps 11)
      (StepObs.mk (Dbl.fin (11/100)) (Dbl.fin 2000) (Dbl.fin 0)) [] hlen hpre hke).1 hd⟩

/-! ## C4: the status token of a run -/

/-- C4, counterexample: a run ended by the energy assertion at step 11 (kinetic
energy 2000, displacement 0) writes no status token at all. -/
theorem status_token_counterexample :
    (run 0 tmax 0
      (quietSteps 11 ++ [StepObs.mk (Dbl.fin (11/100)) (Dbl.fin 2000) (Dbl.fin 0)])).2 =
        Outcome.abortedByAssert ∧
    stdoutOf (run 0 tmax 0
      (quietSteps 11 ++ [StepObs.mk (Dbl.fin (11/100)) (Dbl.fin 2000) (Dbl.fin 0)])).1 =
        [] := by
  have hq := run_append_quiet 0 tmax (quietSteps 11)
    [StepObs.mk (Dbl.fin (11/100)) (Dbl.fin 2000) (Dbl.fin 0)] 0 noneEndsRun_quietSteps
  have hlen : 0 + (quietSteps 11).length = 11 := by simp [quietSteps]
  rw [hlen] at hq
  have hd : Dbl.ge (Dbl.fin 0) (Dbl.fin 1) = false := by simp [Dbl.ge, Dbl.le, Dbl.lt, Dbl.eq]
  have hk : Dbl.lt (Dbl.fin 2000) (Dbl.fin 1000) = false := by simp [Dbl.lt]; norm_num
  rw [hq.1, hq.2, run_cons]
  simp [hd, hk, stdoutOf_append, stdoutOf_logActs, stdoutOf]

/-- C4, amended: for every run of the driving loop on process 0 (every
sequence of per-step times, kinetic energies and displacements): a run stopped
by the MOVED verdict writes `STATUS MOVED` once, as its last output action
before the flush, and nothing else to standard output; a run stopped by the
`end` event at `tmax` writes `STATUS NOT_MOVED` in the same way; a run ended by
the energy assertion writes no status token, its last action being the failed
assertion; while no step has ended the run nothing is on standard output. So
at most one token is written, never both; and a run is pending only if none of
its steps ends it. -/
theorem status_token_per_run (tmx : Dbl) (obs : List StepObs) :
    ((run 0 tmx 0 obs).2 = Outcome.pending ↔ noneEndsRun tmx 0 obs = true) ∧
    (stdoutOf (run 0 tmx 0 obs).1).length ≤ 1 ∧
    (match (run 0 tmx 0 obs).2 with
     | Outcome.stoppedByLogWriting =>
       stdoutOf (run 0 tmx 0 obs).1 = ["STATUS MOVED\n"] ∧
       EndsWithToken "STATUS MOVED\n" (run 0 tmx 0 obs).1
     | Outcome.stoppedByEnd =>
       stdoutOf (run 0 tmx 0 obs).1 = ["STATUS NOT_MOVED\n"] ∧
       EndsWithToken "STATUS NOT_MOVED\n" (run 0 tmx 0 obs).1
     | Outcome.abortedByAssert =>
       stdoutOf (run 0 tmx 0 obs).1 = [] ∧
       ∃ before, (run 0 tmx 0 obs).1 = before ++ [Act.assertFail]
     | Outcome.pending => stdoutOf (run 0 tmx 0 obs).1 = []) := by
  obtain ⟨h1, h2, h3, h4⟩ := run_stdout tmx obs 0
  refine ⟨run_pending_iff 0 tmx obs 0, ?_, ?_⟩
  · cases h : (run 0 tmx 0 obs).2
    · rw [stdoutOf_of_endsWithToken _ _ (h1 h)]; simp
    · rw [(h3 h).1]; simp
    · rw [stdoutOf_of_endsWithToken _ _ (h2 h)]; simp
    · rw [h4 h]; simp
  · split
    · next h => exact ⟨stdoutOf_of_endsWithToken _ _ (h1 h), h1 h⟩
    · next h => exact ⟨stdoutOf_of_endsWithToken _ _ (h2 h), h2 h⟩
    · next h => exact h3 h
    · next h => exact h4 h

/-! ## Rounding -/

theorem Dbl.leadingBit_spec (fuel : Nat) :
    ∀ n : Nat, n ≤ fuel → 0 < n →
      2 ^ Dbl.leadingBit fuel n ≤ n ∧ n < 2 ^ (Dbl.leadingBit fuel n + 1) := by
  induction fuel with
  | zero => intro n h1 h2; omega
  | succ fuel ih =>
    intro n h1 h2
    by_cases hn : n < 2
    · have : n = 1 := by omega
      simp [Dbl.leadingBit, this]
    · simp only [Dbl.leadingBit, hn, if_false]
      obtain ⟨a, b⟩ := ih (n / 2) (by omega) (by omega)
      simp only [Nat.pow_succ] at b ⊢
      constructor <;> omega

theorem Dbl.binade_spec (q : ℚ) (hq : q ≠ 0) :
    (2 : ℚ) ^ Dbl.binade q ≤ |q| ∧ |q| < (2 : ℚ) ^ (Dbl.binade q + 1) := by
  have hn : 0 < q.num.natAbs := Int.natAbs_pos.mpr (Rat.num_ne_zero.mpr hq)
  have hd : 0 < q.den := q.den_pos
  obtain ⟨a1, a2⟩ := Dbl.leadingBit_spec q.num.natAbs q.num.natAbs (le_refl _) hn
  obtain ⟨b1, b2⟩ := Dbl.leadingBit_spec q.den q.den (le_refl _) hd
  have habs : |q| = (q.num.natAbs : ℚ) / (q.den : ℚ) := by
    conv_lhs => rw [← Rat.num_div_den q]
    rw [abs_div, Nat.cast_natAbs, Int.cast_abs]
    congr 1
    exact abs_of_pos (by exact_mod_cast hd)
  have hdq : (0 : ℚ) < (q.den : ℚ) := by exact_mod_cast hd
  have a1q : (2 : ℚ) ^ Dbl.leadingBit q.num.natAbs q.num.natAbs ≤ (q.num.natAbs : ℚ) := by
    exact_mod_cast a1
  have a2q : (q.num.natAbs : ℚ) < (2 : ℚ) ^ (Dbl.leadingBit q.num.natAbs q.num.natAbs + 1) := by
    exact_mod_cast a2
  have b1q : (2 : ℚ) ^ Dbl.leadingBit q.den q.den ≤ (q.den : ℚ) := by exact_mod_cast b1
  have b2q : (q.den : ℚ) < (2 : ℚ) ^ (Dbl.leadingBit q.den q.den + 1) := by exact_mod_cast b2
  have two : (2 : ℚ) ≠ 0 := two_ne_zero
  have e1 : (2 : ℚ) ^ ((Dbl.leadingBit q.num.natAbs q.num.natAbs : ℤ) -
      (Dbl.leadingBit q.den q.den : ℤ) - 1) =
      (2 : ℚ) ^ Dbl.leadingBit q.num.natAbs q.num.natAbs /
        (2 : ℚ) ^ (Dbl.leadingBit q.den q.den + 1) := by
    rw [sub_sub, zpow_sub₀ two, zpow_natCast]
    congr 1
    rw [← zpow_natCast]
    push_cast
    rfl
  have e2 : (2 : ℚ) ^ ((Dbl.leadingBit q.num.natAbs q.num.natAbs : ℤ) -
      (Dbl.leadingBit q.den q.den : ℤ) + 1) =
      (2 : ℚ) ^ (Dbl.leadingBit q.num.natAbs q.num.natAbs + 1) /
        (2 : ℚ) ^ Dbl.leadingBit q.den q.den := by
    rw [show ((Dbl.leadingBit q.num.natAbs q.num.natAbs : ℤ) -
      (Dbl.leadingBit q.den q.den : ℤ) + 1) =
      ((Dbl.leadingBit q.num.natAbs q.num.natAbs + 1 : ℕ) : ℤ) -
        (Dbl.leadingBit q.den q.den : ℤ) by push_cast; ring]
    rw [zpow_sub₀ two, zpow_natCast, zpow_natCast]
  have pb : (0 : ℚ) < (2 : ℚ) ^ Dbl.leadingBit q.den q.den := by positivity
  have pb1 : (0 : ℚ) < (2 : ℚ) ^ (Dbl.leadingBit q.den q.den + 1) := by positivity
  unfold Dbl.binade
  split
  · next h =>
    refine ⟨?_, by rw [sub_add_cancel]; exact h⟩
    rw [e1, habs, div_le_div_iff₀ pb1 hdq]
    calc (2 : ℚ) ^ Dbl.leadingBit q.num.natAbs q.num.natAbs * (q.den : ℚ)
        ≤ (q.num.natAbs : ℚ) * (q.den : ℚ) := by
          apply mul_le_mul_of_nonneg_right a1q (le_of_lt hdq)
      _ ≤ (q.num.natAbs : ℚ) * (2 : ℚ) ^ (Dbl.leadingBit q.den q.den + 1) := by
          apply mul_le_mul_of_nonneg_left (le_of_lt b2q) (by positivity)
  · next h =>
    refine ⟨not_lt.mp h, ?_⟩
    rw [e2, habs, div_lt_div_iff₀ hdq pb]
    calc (q.num.natAbs : ℚ) * (2 : ℚ) ^ Dbl.leadingBit q.den q.den
        ≤ (q.num.natAbs : ℚ) * (q.den : ℚ) := by
          apply mul_le_mul_of_nonneg_left b1q (by positivity)
      _ < (2 : ℚ) ^ (Dbl.leadingBit q.num.natAbs q.num.natAbs + 1) * (q.den : ℚ) := by
          apply mul_lt_mul_of_pos_right a2q hdq

theorem Dbl.roundHalfEven_err (m : ℚ) : |((Dbl.roundHalfEven m : ℤ) : ℚ) - m| ≤ 1 / 2 := by
  have h1 := Int.floor_le m
  have h2 := Int.lt_floor_add_one m
  unfold Dbl.roundHalfEven
  rw [abs_le]
  split
  · constructor <;> linarith
  · split
    · push_cast; constructor <;> linarith
    · split
      · constructor <;> linarith
      · push_cast; constructor <;> linarith

theorem Dbl.round53_zero : Dbl.round53 0 = 0 := by
  simp [Dbl.round53]

theorem Dbl.binade_neg (q : ℚ) : Dbl.binade (-q) = Dbl.binade q := by
  simp [Dbl.binade]

theorem Dbl.round53_neg (q : ℚ) : Dbl.round53 (-q) = -Dbl.round53 q := by
  by_cases h0 : q = 0
  · simp [h0, Dbl.round53_zero]
  · have hn : -q ≠ 0 := neg_ne_zero.mpr h0
    simp only [Dbl.round53, h0, hn, if_false, Dbl.binade_neg, abs_neg]
    rcases lt_or_gt_of_ne h0 with h | h
    · have : ¬ (-q < 0) := by linarith
      simp [h, this]
    · have h1 : ¬ (q < 0) := by linarith
      have h2 : -q < 0 := by linarith
      simp [h1, h2]

/-- The rounding error is at most `2^-53` times the magnitude. -/
theorem Dbl.round53_err (q : ℚ) : |Dbl.round53 q - q| ≤ |q| / 2 ^ 53 := by
  by_cases h0 : q = 0
  · simp [h0, Dbl.round53_zero]
  · obtain ⟨hb, _⟩ := Dbl.binade_spec q h0
    have hs : (0 : ℚ) < (2 : ℚ) ^ (Dbl.binade q - 52) := by positivity
    have hr := Dbl.roundHalfEven_err (|q| / (2 : ℚ) ^ (Dbl.binade q - 52))
    have hsplit : (2 : ℚ) ^ Dbl.binade q = (2 : ℚ) ^ (Dbl.binade q - 52) * 2 ^ 52 := by
      rw [zpow_sub₀ (two_ne_zero), div_mul_eq_mul_div]
      have : (2 : ℚ) ^ (52 : ℤ) = 2 ^ 52 := by norm_num
      rw [this]
      field_simp
    -- the error of the rounded magnitude
    have key : ∀ a r : ℚ, (2 : ℚ) ^ Dbl.binade q ≤ a →
        |r - a / (2 : ℚ) ^ (Dbl.binade q - 52)| ≤ 1 / 2 →
        |r * (2 : ℚ) ^ (Dbl.binade q - 52) - a| ≤ a / 2 ^ 53 := by
      intro a r ha hr2
      have e : r * (2 : ℚ) ^ (Dbl.binade q - 52) - a =
          (r - a / (2 : ℚ) ^ (Dbl.binade q - 52)) * (2 : ℚ) ^ (Dbl.binade q - 52) := by
        field_simp
      rw [e, abs_mul, abs_of_pos hs]
      calc |r - a / (2 : ℚ) ^ (Dbl.binade q - 52)| * (2 : ℚ) ^ (Dbl.binade q - 52)
          ≤ 1 / 2 * (2 : ℚ) ^ (Dbl.binade q - 52) :=
            mul_le_mul_of_nonneg_right hr2 (le_of_lt hs)
        _ = (2 : ℚ) ^ (Dbl.binade q - 52) * 2 ^ 52 / 2 ^ 53 := by
            field_simp; ring
        _ ≤ a / 2 ^ 53 := by
            rw [← hsplit]
            exact div_le_div_of_nonneg_right ha (by positivity)
    have key := key _ _ hb hr
    rcases lt_or_gt_of_ne h0 with h | h
    · have hq : |q| = -q := abs_of_neg h
      simp only [Dbl.round53, h0, h, if_false, if_true]
      rw [hq] at key ⊢
      rw [abs_le] at key ⊢
      constructor <;> linarith [key.1, key.2]
    · have hq : |q| = q := abs_of_pos h
      have h1 : ¬ (q < 0) := by linarith
      simp only [Dbl.round53, h0, h1, if_false]
      rw [hq] at key ⊢
      rw [one_mul]
      exact key

theorem Dbl.round53_nonneg (q : ℚ) (h : 0 ≤ q) : 0 ≤ Dbl.round53 q := by
  have he := Dbl.round53_err q
  rw [abs_of_nonneg h, abs_le] at he
  have : q / 2 ^ 53 ≤ q := div_le_self h (by norm_num)
  linarith [he.1]

theorem Dbl.round53_eq_zero (q : ℚ) (h : Dbl.round53 q = 0) : q = 0 := by
  have he := Dbl.round53_err q
  rw [h, zero_sub, abs_neg] at he
  by_contra hne
  have hp : 0 < |q| := abs_pos.mpr hne
  have : |q| / 2 ^ 53 < |q| := div_lt_self hp (by norm_num)
  linarith

/-- The magnitude of a rounded value is at most `1 + 2^-53` times the magnitude. -/
theorem Dbl.abs_round53_le (q : ℚ) : |Dbl.round53 q| ≤ |q| * (1 + 1 / 2 ^ 53) := by
  have he := Dbl.round53_err q
  have : |Dbl.round53 q| ≤ |Dbl.round53 q - q| + |q| := by
    have := abs_add (Dbl.round53 q - q) q
    simpa using this
  calc |Dbl.round53 q| ≤ |Dbl.round53 q - q| + |q| := this
    _ ≤ |q| / 2 ^ 53 + |q| := by linarith
    _ = |q| * (1 + 1 / 2 ^ 53) := by ring

/-! ## C5: tension coupling -/

theorem one_over_Ca : Dbl.div (Dbl.fin 1) Ca = Dbl.fin 10 := by
  decide!

theorem tension_c0 : tension c0 = Dbl.fin 10 := by
  decide!

theorem tension_eq (cL : Dbl) :
    tension cL = Dbl.add (Dbl.fin 10) (Dbl.mul (Dbl.fin 4) cL) := by
  rw [tension, one_over_Ca]

/-- C5: `1/Ca` is 10 (the rounded quotient of 1 and the double `0.1`); after `init` and after every execution of `properties`,
in every cell `sigmaf` equals `10 + 4*cL` of that cell (after `init`, with
`cL = c0 = 0`, it is 10); `properties` leaves the concentration unchanged,
its result in a cell depends only on the concentration of that cell, running
it twice is running it once, and traversing the cells in another order gives
the same cells in that other order. -/
theorem tension_coupling (sqrtD : Dbl → Dbl) (cells : List Cell) :
    Dbl.div (Dbl.fin 1) Ca = Dbl.fin 10 ∧
    (init sqrtD cells).map Cell.sigmaf =
      (init sqrtD cells).map (fun c => Dbl.add (Dbl.fin 10) (Dbl.mul (Dbl.fin 4) c.cL)) ∧
    (init sqrtD cells).map Cell.sigmaf = cells.map (fun _ => Dbl.fin 10) ∧
    (properties cells).map Cell.sigmaf =
      (properties cells).map (fun c => Dbl.add (Dbl.fin 10) (Dbl.mul (Dbl.fin 4) c.cL)) ∧
    (properties cells).map Cell.cL = cells.map Cell.cL ∧
    properties (properties cells) = properties cells ∧
    (∀ c1 c2 : Cell, c1.cL = c2.cL → (propertiesCell c1).sigmaf = (propertiesCell c2).sigmaf) ∧
    (∀ cells2 : List Cell, List.Perm cells cells2 →
      List.Perm (properties cells) (properties cells2) ∧
      List.Perm (properties (properties cells2)) (properties cells)) := by
  have idem : ∀ l : List Cell, properties (properties l) = properties l := by
    intro l
    simp only [properties, List.map_map]
    apply List.map_congr_left
    intro c _
    rfl
  refine ⟨one_over_Ca, ?_, ?_, ?_, ?_, idem cells, ?_, ?_⟩
  · simp only [init, List.map_map]
    apply List.map_congr_left
    intro c _
    simp only [Function.comp, initCell, tension_eq]
  · simp only [init, List.map_map]
    apply List.map_congr_left
    intro c _
    simp only [Function.comp, initCell, tension_c0]
  · simp only [properties, List.map_map]
    apply List.map_congr_left
    intro c _
    simp only [Function.comp, propertiesCell, tension_eq]
  · simp only [properties, List.map_map]
    apply List.map_congr_left
    intro c _
    rfl
  · intro c1 c2 h
    simp only [propertiesCell, h]
  · intro cells2 hp
    refine ⟨hp.map _, ?_⟩
    rw [idem]
    exact (hp.map _).symm

/-- Witness of C5: two cells with concentrations 1 and 2, traversed in both orders. -/
theorem tension_coupling_witness :
    List.Perm [cellAt 1 1 (Dbl.fin 1) (Dbl.fin 1), cellAt (-1) (-1) (Dbl.fin 0) (Dbl.fin 2)]
      [cellAt (-1) (-1) (Dbl.fin 0) (Dbl.fin 2), cellAt 1 1 (Dbl.fin 1) (Dbl.fin 1)] ∧
    List.Perm
      (properties [cellAt 1 1 (Dbl.fin 1) (Dbl.fin 1), cellAt (-1) (-1) (Dbl.fin 0) (Dbl.fin 2)])
      (properties [cellAt (-1) (-1) (Dbl.fin 0) (Dbl.fin 2), cellAt 1 1 (Dbl.fin 1) (Dbl.fin 1)]) ∧
    (properties
      [cellAt 1 1 (Dbl.fin 1) (Dbl.fin 1), cellAt (-1) (-1) (Dbl.fin 0) (Dbl.fin 2)]).map
        Cell.sigmaf = [Dbl.fin 14, Dbl.fin 18] :=
  ⟨List.Perm.swap _ _ _,
   ((tension_coupling sqrtModel
      [cellAt 1 1 (Dbl.fin 1) (Dbl.fin 1), cellAt (-1) (-1) (Dbl.fin 0) (Dbl.fin 2)]).2.2.2.2.2.2.2
      _ (List.Perm.swap _ _ _)).1,
   by decide!⟩

/-! ## C6: the Péclet number argument -/

/-- C6, counterexample: with the arguments `0` and `-2` (not positive numbers)
`main` does not fail: it derives the diffusivities `1/0 = inf` and
`1/(-2) = -1/2` and starts the run. -/
theorem peclet_validation_counterexample :
    atofModel "0" = Dbl.fin 0 ∧ Dbl.gt (Dbl.fin 0) (Dbl.fin 0) = false ∧
    main atofModel ["dropMove", "0"] =
      MainResult.startsRun (configOf (Dbl.fin 0))
        ["rm -rf intermediate", "mkdir -p intermediate"] ∧
    (configOf (Dbl.fin 0)).cL_D = Dbl.pinf ∧
    atofModel "-2" = Dbl.fin (-2) ∧ Dbl.gt (Dbl.fin (-2)) (Dbl.fin 0) = false ∧
    main atofModel ["dropMove", "-2"] =
      MainResult.startsRun (configOf (Dbl.fin (-2)))
        ["rm -rf intermediate", "mkdir -p intermediate"] ∧
    (configOf (Dbl.fin (-2))).cL_D = Dbl.fin (-1/2) := by
  have h0 : atofModel "0" = Dbl.fin 0 := by decide!
  have h2 : atofModel "-2" = Dbl.fin (-2) := by decide!
  refine ⟨h0, by decide!, ?_, by decide!, h2, by decide!, ?_, by decide!⟩
  · unfold main
    simp only [List.getElem?_cons_succ, List.getElem?_cons_zero, h0]
  · unfold main
    simp only [List.getElem?_cons_succ, List.getElem?_cons_zero, h2]

/-- C6, amended: `main` validates nothing. Whenever an argument is present,
whatever `atof` makes of it (positive, zero, negative, NaN), `main` stores it
as `Pe`, derives the diffusivity as the quotient `1e0/Pe`, issues its two
shell commands and starts the run. When the argument is missing, `atof` is
applied to a null pointer: undefined behaviour, and no configuration error is
reported. -/
theorem main_without_validation (atof : String → Dbl) (argv : List String) :
    (argv[1]? = none → main atof argv = MainResult.undefinedBehaviour) ∧
    (∀ a : String, argv[1]? = some a →
      main atof argv =
        MainResult.startsRun (configOf (atof a))
          ["rm -rf intermediate", "mkdir -p intermediate"] ∧
      (configOf (atof a)).Pe = atof a ∧
      (configOf (atof a)).cL_D = Dbl.div (Dbl.fin 1) (atof a)) := by
  constructor
  · intro h
    unfold main
    rw [h]
  · intro a h
    exact ⟨by unfold main; rw [h], rfl, rfl⟩

/-- Witness of C6: no argument, and the argument `1`. -/
theorem main_without_validation_witness :
    (["dropMove"] : List String)[1]? = none ∧
    main atofModel ["dropMove"] = MainResult.undefinedBehaviour ∧
    (["dropMove", "1"] : List String)[1]? = some "1" ∧
    main atofModel ["dropMove", "1"] =
      MainResult.startsRun (configOf (atofModel "1"))
        ["rm -rf intermediate", "mkdir -p intermediate"] :=
  ⟨rfl, (main_without_validation atofModel ["dropMove"]).1 rfl, rfl,
   ((main_without_validation atofModel ["dropMove", "1"]).2 "1" rfl).1⟩

/-! ## C8: the log schema -/

/-- C8: at step 0 process 0 writes the header `i t ke` and then a row of four
fields (step, time, kinetic energy, displacement), to the diagnostic output
and to `log.dat`: the header names three columns, the row has four fields. -/
theorem log_header_and_row (t ke dst : Dbl) :
    (logWritingTail 0 0 t ke dst).1 =
      [Act.fprintf Stream.ferr "i t ke\n" [], Act.fopen "log.dat" "w",
       Act.fprintf Stream.fp "i t ke\n" [], Act.fclose,
       Act.fprintf Stream.ferr "%d %g %5.5e %5.5e\n"
         [Arg.int 0, Arg.dbl t, Arg.dbl ke, Arg.dbl dst],
       Act.fopen "log.dat" "a",
       Act.fprintf Stream.fp "%d %g %5.5e %5.5e\n"
         [Arg.int 0, Arg.dbl t, Arg.dbl ke, Arg.dbl dst],
       Act.fclose] ∧
    words logHeader = ["i".data, "t".data, "ke".data] ∧
    (words logHeader).length = 3 ∧
    conversions logRowFormat.data = 4 ∧
    (words logRowFormat).length = 4 ∧
    (logRowArgs 0 t ke dst).length = 4 ∧
    (words logHeader).length ≠ (logRowArgs 0 t ke dst).length := by
  have h3 : (words logHeader).length = 3 := by decide
  refine ⟨?_, by decide, h3, by decide, by decide, rfl, ?_⟩
  · simp [logWritingTail, logActs, logHeader, logRowFormat, logRowArgs]
  · rw [h3]
    simp [logRowArgs]

/-! ## Sums over the mesh -/

theorem clamp_unit_cases (x : Dbl) :
    clamp x (Dbl.fin 0) (Dbl.fin 1) = Dbl.nan ∨
      ∃ q : ℚ, 0 ≤ q ∧ q ≤ 1 ∧ clamp x (Dbl.fin 0) (Dbl.fin 1) = Dbl.fin q := by
  cases x with
  | nan => left; simp [clamp, Dbl.lt, Dbl.gt]
  | ninf => right; exact ⟨0, le_refl 0, zero_le_one, by simp [clamp, Dbl.lt]⟩
  | pinf => right; exact ⟨1, zero_le_one, le_refl 1, by simp [clamp, Dbl.lt, Dbl.gt]⟩
  | fin q =>
    right
    by_cases h0 : q < 0
    · exact ⟨0, le_refl 0, zero_le_one, by simp [clamp, Dbl.lt, h0]⟩
    · by_cases h1 : 1 < q
      · exact ⟨1, zero_le_one, le_refl 1, by simp [clamp, Dbl.lt, Dbl.gt, h0, h1]⟩
      · exact ⟨q, not_lt.mp h0, not_lt.mp h1, by simp [clamp, Dbl.lt, Dbl.gt, h0, h1]⟩

theorem Dbl.toQ_fin (q : ℚ) : (Dbl.fin q).toQ = q := rfl

theorem Dbl.add_fin_fin (a b : ℚ) :
    Dbl.add (Dbl.fin a) (Dbl.fin b) = Dbl.fin (Dbl.round53 (a + b)) := rfl

theorem Dbl.mul_fin_fin (a b : ℚ) :
    Dbl.mul (Dbl.fin a) (Dbl.fin b) = Dbl.fin (Dbl.round53 (a * b)) := rfl

theorem Dbl.nan_add (x : Dbl) : Dbl.add Dbl.nan x = Dbl.nan := by
  cases x <;> rfl

theorem Dbl.add_eq_fin (a b : Dbl) (s : ℚ) (h : Dbl.add a b = Dbl.fin s) :
    ∃ qa qb : ℚ, a = Dbl.fin qa ∧ b = Dbl.fin qb ∧ s = Dbl.round53 (qa + qb) := by
  cases a <;> cases b <;> simp [Dbl.add] at h
  exact ⟨_, _, rfl, rfl, h.symm⟩

/-- A sum that comes out finite has a finite start and finite terms. -/
theorem foldl_add_eq_fin (g : Cell → Dbl) (cells : List Cell) :
    ∀ (a : Dbl) (s : ℚ), cells.foldl (fun acc c => Dbl.add acc (g c)) a = Dbl.fin s →
      (∃ qa : ℚ, a = Dbl.fin qa) ∧ ∀ c ∈ cells, ∃ q : ℚ, g c = Dbl.fin q := by
  induction cells with
  | nil =>
    intro a s h
    exact ⟨⟨s, h⟩, by simp⟩
  | cons c cells ih =>
    intro a s h
    rw [List.foldl_cons] at h
    obtain ⟨⟨q1, h1⟩, h3⟩ := ih _ _ h
    obtain ⟨qa, qb, ha, hb, _⟩ := Dbl.add_eq_fin _ _ _ h1
    refine ⟨⟨qa, ha⟩, ?_⟩
    intro c2 hc2
    rcases List.mem_cons.mp hc2 with rfl | hm
    · exact ⟨qb, hb⟩
    · exact h3 c2 hm

/-- A sum of finite terms from a finite start is the rounded running sum of
their values. -/
theorem foldl_add_of_fin (g : Cell → Dbl) (cells : List Cell) :
    ∀ a : ℚ, (∀ c ∈ cells, ∃ q : ℚ, g c = Dbl.fin q) →
      cells.foldl (fun acc c => Dbl.add acc (g c)) (Dbl.fin a) =
        Dbl.fin (fsum a (cells.map (fun c => (g c).toQ))) := by
  induction cells with
  | nil => intro a _; rfl
  | cons c cells ih =>
    intro a h
    obtain ⟨q, hq⟩ := h c (List.mem_cons_self _ _)
    rw [List.foldl_cons, hq, Dbl.add_fin_fin,
      ih _ (fun c2 hc2 => h c2 (List.mem_cons_of_mem _ hc2))]
    simp only [List.map_cons, fsum, List.foldl_cons, hq, Dbl.toQ_fin]

/-- A sum of terms that are NaN or finite is NaN or finite. -/
theorem foldl_add_nan_or_fin (g : Cell → Dbl)
    (hg : ∀ c, g c = Dbl.nan ∨ ∃ q : ℚ, g c = Dbl.fin q) (cells : List Cell) :
    ∀ a : Dbl, (a = Dbl.nan ∨ ∃ q : ℚ, a = Dbl.fin q) →
      (cells.foldl (fun acc c => Dbl.add acc (g c)) a = Dbl.nan ∨
        ∃ q : ℚ, cells.foldl (fun acc c => Dbl.add acc (g c)) a = Dbl.fin q) := by
  induction cells with
  | nil => intro a h; simpa using h
  | cons c cells ih =>
    intro a h
    rw [List.foldl_cons]
    apply ih
    rcases h with rfl | ⟨q, rfl⟩
    · left; exact Dbl.nan_add _
    · rcases hg c with h2 | ⟨q2, h2⟩
      · left; rw [h2]; rfl
      · right; exact ⟨Dbl.round53 (q + q2), by rw [h2]; rfl⟩

theorem fsum_cons (a w : ℚ) (ws : List ℚ) :
    fsum a (w :: ws) = fsum (Dbl.round53 (a + w)) ws := rfl

/-- A rounded sum of non-negative terms is zero only if the start and every
term are zero. -/
theorem fsum_eq_zero (ws : List ℚ) :
    ∀ a : ℚ, 0 ≤ a → (∀ w ∈ ws, 0 ≤ w) → fsum a ws = 0 → a = 0 ∧ ∀ w ∈ ws, w = 0 := by
  induction ws with
  | nil => intro a _ _ h; exact ⟨h, by simp⟩
  | cons w ws ih =>
    intro a ha hw h
    have hw0 : 0 ≤ w := hw w (List.mem_cons_self _ _)
    rw [fsum_cons] at h
    obtain ⟨h1, h2⟩ := ih _ (Dbl.round53_nonneg _ (add_nonneg ha hw0))
      (fun w2 h2 => hw w2 (List.mem_cons_of_mem _ h2)) h
    have h3 := Dbl.round53_eq_zero _ h1
    have ha0 : a = 0 := by linarith
    have hw1 : w = 0 := by linarith
    refine ⟨ha0, ?_⟩
    intro w2 hw2
    rcases List.mem_cons.mp hw2 with rfl | hm
    · exact hw1
    · exact h2 w2 hm

theorem fsum_zeros (ws : List ℚ) (h : ∀ w ∈ ws, w = 0) : fsum 0 ws = 0 := by
  induction ws with
  | nil => rfl
  | cons w ws ih =>
    rw [fsum_cons, h w (List.mem_cons_self _ _), add_zero, Dbl.round53_zero]
    exact ih (fun w2 h2 => h w2 (List.mem_cons_of_mem _ h2))

theorem sumf_eq (cells : List Cell) :
    sumf cells = cells.foldl (fun acc c => Dbl.add acc (clampedFraction c)) (Dbl.fin 0) := rfl

theorem sumv1_eq (cells : List Cell) :
    sumv1 cells =
      cells.foldl (fun acc c => Dbl.add acc (Dbl.mul (clampedFraction c) (Dbl.fin c.x)))
        (Dbl.fin 0) := rfl

theorem sumv2_eq (cells : List Cell) :
    sumv2 cells =
      cells.foldl (fun acc c => Dbl.add acc (Dbl.mul (clampedFraction c) (Dbl.fin c.y)))
        (Dbl.fin 0) := rfl

/-- When the total clamped fraction is finite, every clamped fraction is a
finite number between 0 and 1, and the three sums are the rounded running
sums of the values and of the rounded products. -/
theorem sums_of_sumf_fin (cells : List Cell) (s : ℚ) (h : sumf cells = Dbl.fin s) :
    (∀ c ∈ cells, ∃ q : ℚ, 0 ≤ q ∧ q ≤ 1 ∧ clampedFraction c = Dbl.fin q) ∧
    s = fsum 0 (cells.map (fun c => (clampedFraction c).toQ)) ∧
    sumv1 cells =
      Dbl.fin (fsum 0 (cells.map (fun c => Dbl.round53 ((clampedFraction c).toQ * c.x)))) ∧
    sumv2 cells =
      Dbl.fin (fsum 0 (cells.map (fun c => Dbl.round53 ((clampedFraction c).toQ * c.y)))) := by
  have h2 := h
  rw [sumf_eq] at h
  obtain ⟨_, hall⟩ := foldl_add_eq_fin _ _ _ _ h
  have hall2 : ∀ c ∈ cells, ∃ q : ℚ, 0 ≤ q ∧ q ≤ 1 ∧ clampedFraction c = Dbl.fin q := by
    intro c hc
    obtain ⟨q, hq⟩ := hall c hc
    rcases clamp_unit_cases c.f with hn | ⟨q2, h0, h1, h2⟩
    · rw [clampedFraction, hn] at hq; cases hq
    · exact ⟨q2, h0, h1, by rw [clampedFraction, h2]⟩
  have hs : s = fsum 0 (cells.map (fun c => (clampedFraction c).toQ)) := by
    rw [sumf_eq, foldl_add_of_fin _ _ _ hall] at h2
    exact (Dbl.fin.inj h2).symm
  refine ⟨hall2, hs, ?_, ?_⟩
  · rw [sumv1_eq, foldl_add_of_fin]
    · congr 2
      apply List.map_congr_left
      intro c hc
      obtain ⟨q, _, _, hq⟩ := hall2 c hc
      simp only [hq, Dbl.mul_fin_fin, Dbl.toQ_fin]
    · intro c hc
      obtain ⟨q, _, _, hq⟩ := hall2 c hc
      exact ⟨_, by rw [hq, Dbl.mul_fin_fin]⟩
  · rw [sumv2_eq, foldl_add_of_fin]
    · congr 2
      apply List.map_congr_left
      intro c hc
      obtain ⟨q, _, _, hq⟩ := hall2 c hc
      simp only [hq, Dbl.mul_fin_fin, Dbl.toQ_fin]
    · intro c hc
      obtain ⟨q, _, _, hq⟩ := hall2 c hc
      exact ⟨_, by rw [hq, Dbl.mul_fin_fin]⟩

/-- When `dist >= 1.0` does not hold, `logWriting` does not return 1 and writes
nothing to standard output. -/
theorem not_moved_of_not_ge (pid i : Nat) (t ke dst : Dbl)
    (hd : Dbl.ge dst (Dbl.fin 1) = false) :
    (logWritingTail pid i t ke dst).2 ≠ EventStatus.returned 1 ∧
    stdoutOf (logWritingTail pid i t ke dst).1 = [] ∧
    (logWritingTail pid i t ke dst).2 =
      if 10 < i ∧ Dbl.lt ke (Dbl.fin 1000) = false then EventStatus.aborted
      else EventStatus.returned 0 := by
  by_cases hi : 10 < i
  · cases hk : Dbl.lt ke (Dbl.fin 1000)
    · rw [logWritingTail_abort pid i t ke dst hi hd hk]
      simp [stdoutOf_append, stdoutOf_logActs, stdoutOf, hi]
    · rw [logWritingTail_continue pid i t ke dst (Or.inr ⟨hd, hk⟩)]
      simp [stdoutOf_logActs]
  · rw [logWritingTail_continue pid i t ke dst (Or.inl (by omega))]
    simp [stdoutOf_logActs, hi]

/-- With a zero total clamped fraction both weighted sums are zero and the
centroid is `0/0`, that is NaN. -/
theorem centroid_of_zero_mass (cells : List Cell) (h0 : sumf cells = Dbl.fin 0) :
    sumv1 cells = Dbl.fin 0 ∧ sumv2 cells = Dbl.fin 0 ∧
    xcm1 cells = Dbl.nan ∧ ycm2 cells = Dbl.nan := by
  obtain ⟨hall, hs, h1, h2⟩ := sums_of_sumf_fin cells 0 h0
  have hw : ∀ w ∈ cells.map (fun c => (clampedFraction c).toQ), 0 ≤ w := by
    intro w hw
    obtain ⟨c, hc, rfl⟩ := List.mem_map.mp hw
    obtain ⟨q, hq0, _, hq⟩ := hall c hc
    rw [hq]
    exact hq0
  obtain ⟨_, hz⟩ := fsum_eq_zero _ 0 (le_refl 0) hw hs.symm
  have hzc : ∀ c ∈ cells, (clampedFraction c).toQ = 0 :=
    fun c hc => hz _ (List.mem_map.mpr ⟨c, hc, rfl⟩)
  have z1 : fsum 0 (cells.map (fun c => Dbl.round53 ((clampedFraction c).toQ * c.x))) = 0 := by
    apply fsum_zeros
    intro w hw
    obtain ⟨c, hc, rfl⟩ := List.mem_map.mp hw
    rw [hzc c hc, zero_mul, Dbl.round53_zero]
  have z2 : fsum 0 (cells.map (fun c => Dbl.round53 ((clampedFraction c).toQ * c.y))) = 0 := by
    apply fsum_zeros
    intro w hw
    obtain ⟨c, hc, rfl⟩ := List.mem_map.mp hw
    rw [hzc c hc, zero_mul, Dbl.round53_zero]
  rw [z1] at h1
  rw [z2] at h2
  refine ⟨h1, h2, ?_, ?_⟩
  · rw [xcm1, h1, h0]
    simp [Dbl.div]
  · rw [ycm2, h2, h0]
    simp [Dbl.div]

/-! ## C9: degenerate mass -/

/-- C9, counterexample: a one-cell mesh whose volume fraction is 0. The total
clamped fraction is zero, the centroid and the displacement are NaN, and at
step 11 `logWriting` raises no error: it logs the NaN displacement, compares
it with 1.0, and returns 0, so the run continues. -/
theorem degenerate_mass_counterexample :
    sumf [cellAt 1 1 (Dbl.fin 0) (Dbl.fin 0)] = Dbl.fin 0 ∧
    dist sqrtModel [cellAt 1 1 (Dbl.fin 0) (Dbl.fin 0)] = Dbl.nan ∧
    logWriting sqrtModel (Dbl.fin 4) (Dbl.fin 4) 0 11 (Dbl.fin 1)
        [cellAt 1 1 (Dbl.fin 0) (Dbl.fin 0)] =
      ([Act.fprintf Stream.ferr "%d %g %5.5e %5.5e\n"
          [Arg.int 11, Arg.dbl (Dbl.fin 1), Arg.dbl (Dbl.fin 0), Arg.dbl Dbl.nan],
        Act.fopen "log.dat" "a",
        Act.fprintf Stream.fp "%d %g %5.5e %5.5e\n"
          [Arg.int 11, Arg.dbl (Dbl.fin 1), Arg.dbl (Dbl.fin 0), Arg.dbl Dbl.nan],
        Act.fclose],
       EventStatus.returned 0) := by
  have hf : sumf [cellAt 1 1 (Dbl.fin 0) (Dbl.fin 0)] = Dbl.fin 0 := by
    decide!
  have hc := centroid_of_zero_mass _ hf
  have hd : dist sqrtModel [cellAt 1 1 (Dbl.fin 0) (Dbl.fin 0)] = Dbl.nan := by
    rw [dist, hc.2.2.1, hc.2.2.2]
    rfl
  have hk : kineticEnergy (Dbl.fin 4) (Dbl.fin 4) [cellAt 1 1 (Dbl.fin 0) (Dbl.fin 0)] =
      Dbl.fin 0 := by
    decide!
  refine ⟨hf, hd, ?_⟩
  rw [logWriting, hd, hk]
  rw [logWritingTail_continue 0 11 (Dbl.fin 1) (Dbl.fin 0) Dbl.nan
    (Or.inr ⟨rfl, by simp [Dbl.lt]⟩)]
  simp [logActs, logRowFormat, logRowArgs]

/-- C9, amended: for every field state whose total clamped volume fraction is
zero, `logWriting` detects nothing and raises no error: the centroid is
`0/0 = NaN` in both coordinates, the displacement is NaN (for a `sqrt` that
maps NaN to NaN), and the event proceeds with that value: it is logged, the
comparison `dist >= 1.0` is evaluated and is false, so the MOVED verdict is
not produced and nothing is written to standard output, and after warmup the
outcome is decided by the energy assertion alone. -/
theorem degenerate_mass (sqrtD : Dbl → Dbl) (hs : sqrtD Dbl.nan = Dbl.nan)
    (rho1 rho2 : Dbl) (pid i : Nat) (t : Dbl) (cells : List Cell)
    (h0 : sumf cells = Dbl.fin 0) :
    xcm1 cells = Dbl.nan ∧ ycm2 cells = Dbl.nan ∧ dist sqrtD cells = Dbl.nan ∧
    logWriting sqrtD rho1 rho2 pid i t cells =
      logWritingTail pid i t (kineticEnergy rho1 rho2 cells) Dbl.nan ∧
    Dbl.ge (dist sqrtD cells) (Dbl.fin 1) = false ∧
    (logWriting sqrtD rho1 rho2 pid i t cells).2 ≠ EventStatus.returned 1 ∧
    stdoutOf (logWriting sqrtD rho1 rho2 pid i t cells).1 = [] ∧
    (logWriting sqrtD rho1 rho2 pid i t cells).2 =
      if 10 < i ∧ Dbl.lt (kineticEnergy rho1 rho2 cells) (Dbl.fin 1000) = false then
        EventStatus.aborted
      else EventStatus.returned 0 := by
  have hc := centroid_of_zero_mass cells h0
  have hd : dist sqrtD cells = Dbl.nan := by
    rw [dist, hc.2.2.1, hc.2.2.2]
    exact hs
  have hn := not_moved_of_not_ge pid i t (kineticEnergy rho1 rho2 cells) Dbl.nan rfl
  refine ⟨hc.2.2.1, hc.2.2.2, hd, by rw [logWriting, hd], by rw [hd]; rfl, ?_, ?_, ?_⟩
  · rw [logWriting, hd]; exact hn.1
  · rw [logWriting, hd]; exact hn.2.1
  · rw [logWriting, hd]; exact hn.2.2

/-- Witness of C9: the one-cell mesh with volume fraction 0, at step 11. -/
theorem degenerate_mass_witness :
    sqrtModel Dbl.nan = Dbl.nan ∧
    sumf [cellAt 1 1 (Dbl.fin 0) (Dbl.fin 0)] = Dbl.fin 0 ∧
    dist sqrtModel [cellAt 1 1 (Dbl.fin 0) (Dbl.fin 0)] = Dbl.nan ∧
    stdoutOf (logWriting sqrtModel (Dbl.fin 4) (Dbl.fin 4) 0 11 (Dbl.fin 1)
      [cellAt 1 1 (Dbl.fin 0) (Dbl.fin 0)]).1 = [] := by
  have hf : sumf [cellAt 1 1 (Dbl.fin 0) (Dbl.fin 0)] = Dbl.fin 0 := by
    decide!
  have hw := degenerate_mass sqrtModel rfl (Dbl.fin 4) (Dbl.fin 4) 0 11 (Dbl.fin 1)
    [cellAt 1 1 (Dbl.fin 0) (Dbl.fin 0)] hf
  exact ⟨rfl, hf, hw.2.2.1, hw.2.2.2.2.2.2.1⟩

/-! ## Rounding errors of sums -/

theorem roundoffFactor_pos : 0 < roundoffFactor := by
  unfold roundoffFactor; positivity

theorem one_le_roundoffFactor : 1 ≤ roundoffFactor := by
  unfold roundoffFactor
  have : (0 : ℚ) ≤ 1 / 2 ^ 53 := by positivity
  linarith

theorem round53_err_factor (q : ℚ) : |Dbl.round53 q - q| ≤ (roundoffFactor - 1) * |q| := by
  have h := Dbl.round53_err q
  unfold roundoffFactor
  calc |Dbl.round53 q - q| ≤ |q| / 2 ^ 53 := h
    _ = (1 + 1 / 2 ^ 53 - 1) * |q| := by ring

theorem abs_round53_le_factor (q : ℚ) : |Dbl.round53 q| ≤ roundoffFactor * |q| := by
  have h := Dbl.abs_round53_le q
  unfold roundoffFactor
  linarith

theorem roundoffFactor_pow_le (n : ℕ) (h : 2 * (n : ℚ) / 2 ^ 53 ≤ 1) :
    roundoffFactor ^ n ≤ 1 + 2 * (n : ℚ) / 2 ^ 53 := by
  induction n with
  | zero => simp
  | succ n ih =>
    have hn : 2 * (n : ℚ) / 2 ^ 53 ≤ 1 := by
      have : (n : ℚ) ≤ ((n + 1 : ℕ) : ℚ) := by push_cast; linarith
      have h2 : 2 * (n : ℚ) / 2 ^ 53 ≤ 2 * ((n + 1 : ℕ) : ℚ) / 2 ^ 53 := by
        apply div_le_div_of_nonneg_right _ (by positivity)
        linarith
      linarith
    have ih2 := ih hn
    have hnn : (0 : ℚ) ≤ (n : ℚ) := Nat.cast_nonneg n
    rw [pow_succ]
    calc roundoffFactor ^ n * roundoffFactor
        ≤ (1 + 2 * (n : ℚ) / 2 ^ 53) * roundoffFactor :=
          mul_le_mul_of_nonneg_right ih2 (le_of_lt roundoffFactor_pos)
      _ = 1 + 2 * (n : ℚ) / 2 ^ 53 + 1 / 2 ^ 53 + (2 * (n : ℚ) / 2 ^ 53) * (1 / 2 ^ 53) := by
          unfold roundoffFactor; ring
      _ ≤ 1 + 2 * (n : ℚ) / 2 ^ 53 + 1 / 2 ^ 53 + 1 * (1 / 2 ^ 53) := by
          have : (2 * (n : ℚ) / 2 ^ 53) * (1 / 2 ^ 53) ≤ 1 * (1 / 2 ^ 53) :=
            mul_le_mul_of_nonneg_right hn (by positivity)
          linarith
      _ = 1 + 2 * ((n + 1 : ℕ) : ℚ) / 2 ^ 53 := by push_cast; ring

/-- For at most `512 * 512` terms the accumulated rounding factor exceeds 1 by
at most `2^-34`. -/
theorem roundoffFactor_pow_bound (n : ℕ) (hn : n ≤ 262144) :
    0 ≤ roundoffFactor ^ n - 1 ∧ roundoffFactor ^ n - 1 ≤ 1 / 2 ^ 34 := by
  have hq : (n : ℚ) ≤ 262144 := by exact_mod_cast hn
  have h1 : 2 * (n : ℚ) / 2 ^ 53 ≤ 2 * 262144 / 2 ^ 53 := by
    apply div_le_div_of_nonneg_right _ (by positivity)
    linarith
  have h2 : (2 : ℚ) * 262144 / 2 ^ 53 = 1 / 2 ^ 34 := by norm_num
  have h3 : (1 : ℚ) / 2 ^ 34 ≤ 1 := by norm_num
  have h4 := roundoffFactor_pow_le n (by linarith)
  have h5 : 1 ≤ roundoffFactor ^ n := one_le_pow₀ one_le_roundoffFactor
  constructor <;> linarith

/-- The error of a rounded running sum: at most the accumulated rounding factor
minus one, times the sum of the magnitudes. -/
theorem fsum_err (ws : List ℚ) :
    ∀ a : ℚ, |fsum a ws - (a + ws.sum)| ≤
      (roundoffFactor ^ ws.length - 1) * (|a| + (ws.map (fun w => |w|)).sum) := by
  induction ws with
  | nil => intro a; simp [fsum]
  | cons w ws ih =>
    intro a
    have ih2 := ih (Dbl.round53 (a + w))
    have e1 := round53_err_factor (a + w)
    have e2 := abs_round53_le_factor (a + w)
    have tri : |a + w| ≤ |a| + |w| := abs_add a w
    have hU := one_le_roundoffFactor
    have hP : 1 ≤ roundoffFactor ^ ws.length := one_le_pow₀ hU
    have hA : 0 ≤ (ws.map (fun w => |w|)).sum := by
      apply List.sum_nonneg
      intro x hx
      obtain ⟨y, _, rfl⟩ := List.mem_map.mp hx
      exact abs_nonneg y
    have hB : 0 ≤ |a| + |w| := by positivity
    rw [fsum_cons, List.sum_cons, List.map_cons, List.sum_cons, List.length_cons, pow_succ]
    have step : |fsum (Dbl.round53 (a + w)) ws - (a + (w + ws.sum))| ≤
        |fsum (Dbl.round53 (a + w)) ws - (Dbl.round53 (a + w) + ws.sum)| +
          |Dbl.round53 (a + w) - (a + w)| := by
      have := abs_add (fsum (Dbl.round53 (a + w)) ws - (Dbl.round53 (a + w) + ws.sum))
        (Dbl.round53 (a + w) - (a + w))
      have e : fsum (Dbl.round53 (a + w)) ws - (Dbl.round53 (a + w) + ws.sum) +
          (Dbl.round53 (a + w) - (a + w)) =
          fsum (Dbl.round53 (a + w)) ws - (a + (w + ws.sum)) := by ring
      rw [e] at this
      exact this
    have b1 : (roundoffFactor ^ ws.length - 1) *
        (|Dbl.round53 (a + w)| + (ws.map (fun w => |w|)).sum) ≤
        (roundoffFactor ^ ws.length - 1) *
          (roundoffFactor * (|a| + |w|) + (ws.map (fun w => |w|)).sum) := by
      apply mul_le_mul_of_nonneg_left _ (by linarith)
      have : roundoffFactor * |a + w| ≤ roundoffFactor * (|a| + |w|) :=
        mul_le_mul_of_nonneg_left tri (le_of_lt roundoffFactor_pos)
      linarith
    have b2 : (roundoffFactor - 1) * |a + w| ≤ (roundoffFactor - 1) * (|a| + |w|) :=
      mul_le_mul_of_nonneg_left tri (by linarith)
    have ident : (roundoffFactor ^ ws.length * roundoffFactor - 1) *
        (|a| + (|w| + (ws.map (fun w => |w|)).sum)) =
        (roundoffFactor ^ ws.length - 1) *
          (roundoffFactor * (|a| + |w|) + (ws.map (fun w => |w|)).sum) +
        (roundoffFactor - 1) * (|a| + |w|) +
        (ws.map (fun w => |w|)).sum * roundoffFactor ^ ws.length * (roundoffFactor - 1) := by
      ring
    have extra : 0 ≤ (ws.map (fun w => |w|)).sum * roundoffFactor ^ ws.length *
        (roundoffFactor - 1) := by
      apply mul_nonneg (mul_nonneg hA (by linarith)) (by linarith)
    rw [ident]
    linarith

theorem sum_map_abs_of_nonneg (ws : List ℚ) (h : ∀ w ∈ ws, 0 ≤ w) :
    (ws.map (fun w => |w|)).sum = ws.sum := by
  induction ws with
  | nil => rfl
  | cons w ws ih =>
    rw [List.map_cons, List.sum_cons, List.sum_cons,
      ih (fun w2 h2 => h w2 (List.mem_cons_of_mem _ h2)),
      abs_of_nonneg (h w (List.mem_cons_self _ _))]

/-- One coordinate of the centroid: when the exact sum of the weighted terms
vanishes and their magnitudes are at most `5 * (1 + 2^-53)` times the weights,
the rounded quotient of the rounded sums is at most `2^-30` in magnitude. -/
theorem centroid_coordinate_bound (ws ps : List ℚ)
    (hlw : ws.length ≤ 262144) (hlp : ps.length ≤ 262144)
    (hw : ∀ w ∈ ws, 0 ≤ w) (hsum : ps.sum = 0)
    (habs : (ps.map (fun p => |p|)).sum ≤ 5 * roundoffFactor * ws.sum)
    (hF : 0 < fsum 0 ws) :
    |Dbl.round53 (fsum 0 ps / fsum 0 ws)| ≤ 1 / 2 ^ 30 := by
  have hW : 0 ≤ ws.sum := List.sum_nonneg hw
  obtain ⟨gp0, gp1⟩ := roundoffFactor_pow_bound ps.length hlp
  obtain ⟨gw0, gw1⟩ := roundoffFactor_pow_bound ws.length hlw
  have hU1 : roundoffFactor ≤ 1 + 1 / 2 ^ 53 := le_of_eq rfl
  have hU0 := one_le_roundoffFactor
  -- the computed weighted sum
  have eS := fsum_err ps 0
  rw [hsum, abs_zero, zero_add, zero_add, sub_zero] at eS
  have hP : 0 ≤ (ps.map (fun p => |p|)).sum := by
    apply List.sum_nonneg
    intro x hx
    obtain ⟨y, _, rfl⟩ := List.mem_map.mp hx
    exact abs_nonneg y
  have eS2 : |fsum 0 ps| ≤ 1 / 2 ^ 34 * (5 * roundoffFactor * ws.sum) := by
    calc |fsum 0 ps| ≤ (roundoffFactor ^ ps.length - 1) * (ps.map (fun p => |p|)).sum := eS
      _ ≤ 1 / 2 ^ 34 * (ps.map (fun p => |p|)).sum := mul_le_mul_of_nonneg_right gp1 hP
      _ ≤ 1 / 2 ^ 34 * (5 * roundoffFactor * ws.sum) :=
          mul_le_mul_of_nonneg_left habs (by positivity)
  -- the computed total weight
  have eF := fsum_err ws 0
  rw [abs_zero, zero_add, zero_add, sum_map_abs_of_nonneg ws hw] at eF
  have eF2 : |fsum 0 ws - ws.sum| ≤ 1 / 2 ^ 34 * ws.sum :=
    le_trans eF (mul_le_mul_of_nonneg_right gw1 hW)
  rw [abs_le] at eF2
  have hFlow : (1 - 1 / 2 ^ 34) * ws.sum ≤ fsum 0 ws := by linarith [eF2.1]
  -- the quotient
  have hq : |fsum 0 ps / fsum 0 ws| ≤ 1 / 2 ^ 31 := by
    rw [abs_div, abs_of_pos hF, div_le_iff₀ hF]
    have hUW : roundoffFactor * ws.sum ≤ (1 + 1 / 2 ^ 53) * ws.sum :=
      mul_le_mul_of_nonneg_right hU1 hW
    have num : (1 : ℚ) / 2 ^ 34 * (5 * ((1 + 1 / 2 ^ 53) * ws.sum)) ≤
        1 / 2 ^ 31 * ((1 - 1 / 2 ^ 34) * ws.sum) := by
      have c : (1 : ℚ) / 2 ^ 34 * (5 * (1 + 1 / 2 ^ 53)) ≤ 1 / 2 ^ 31 * (1 - 1 / 2 ^ 34) := by
        norm_num
      have := mul_le_mul_of_nonneg_right c hW
      linarith
    have low : (1 : ℚ) / 2 ^ 31 * ((1 - 1 / 2 ^ 34) * ws.sum) ≤ 1 / 2 ^ 31 * fsum 0 ws :=
      mul_le_mul_of_nonneg_left hFlow (by positivity)
    linarith
  calc |Dbl.round53 (fsum 0 ps / fsum 0 ws)|
      ≤ roundoffFactor * |fsum 0 ps / fsum 0 ws| := abs_round53_le_factor _
    _ ≤ roundoffFactor * (1 / 2 ^ 31) :=
        mul_le_mul_of_nonneg_left hq (le_of_lt roundoffFactor_pos)
    _ ≤ 1 / 2 ^ 30 := by unfold roundoffFactor; norm_num

/-- The argument of `sqrt` in the displacement, for coordinates of magnitude at
most `2^-30`: a number between 0 and `1/4`. -/
theorem squared_norm_bound (cx cy : ℚ) (hx : |cx| ≤ 1 / 2 ^ 30) (hy : |cy| ≤ 1 / 2 ^ 30) :
    0 ≤ Dbl.round53 (Dbl.round53 (cx * cx) + Dbl.round53 (cy * cy)) ∧
    Dbl.round53 (Dbl.round53 (cx * cx) + Dbl.round53 (cy * cy)) ≤ 1 / 4 := by
  have sqb : ∀ c : ℚ, |c| ≤ 1 / 2 ^ 30 →
      0 ≤ Dbl.round53 (c * c) ∧ Dbl.round53 (c * c) ≤ 1 / 2 ^ 59 := by
    intro c hc
    have h0 : 0 ≤ c * c := mul_self_nonneg c
    have h1 : c * c ≤ 1 / 2 ^ 30 * (1 / 2 ^ 30) := by
      have : c * c = |c| * |c| := (abs_mul_abs_self c).symm
      rw [this]
      exact mul_le_mul hc hc (abs_nonneg c) (by positivity)
    have h2 := abs_round53_le_factor (c * c)
    rw [abs_of_nonneg h0] at h2
    have h3 : roundoffFactor * (c * c) ≤ roundoffFactor * (1 / 2 ^ 30 * (1 / 2 ^ 30)) :=
      mul_le_mul_of_nonneg_left h1 (le_of_lt roundoffFactor_pos)
    have h4 : roundoffFactor * (1 / 2 ^ 30 * (1 / 2 ^ 30)) ≤ 1 / 2 ^ 59 := by
      unfold roundoffFactor; norm_num
    exact ⟨Dbl.round53_nonneg _ h0, by linarith [le_abs_self (Dbl.round53 (c * c))]⟩
  obtain ⟨x0, x1⟩ := sqb cx hx
  obtain ⟨y0, y1⟩ := sqb cy hy
  have s0 : 0 ≤ Dbl.round53 (cx * cx) + Dbl.round53 (cy * cy) := add_nonneg x0 y0
  have h2 := abs_round53_le_factor (Dbl.round53 (cx * cx) + Dbl.round53 (cy * cy))
  rw [abs_of_nonneg s0] at h2
  have h3 : roundoffFactor * (Dbl.round53 (cx * cx) + Dbl.round53 (cy * cy)) ≤
      roundoffFactor * (1 / 2 ^ 59 + 1 / 2 ^ 59) :=
    mul_le_mul_of_nonneg_left (by linarith) (le_of_lt roundoffFactor_pos)
  have h4 : roundoffFactor * (1 / 2 ^ 59 + 1 / 2 ^ 59) ≤ 1 / 4 := by
    unfold roundoffFactor; norm_num
  exact ⟨Dbl.round53_nonneg _ s0, by
    linarith [le_abs_self (Dbl.round53 (Dbl.round53 (cx * cx) + Dbl.round53 (cy * cy)))]⟩

theorem sum_map_neg_eq (f : Cell → ℚ) (cells : List Cell) :
    (cells.map (fun c => -(f c))).sum = -(cells.map f).sum := by
  induction cells with
  | nil => simp
  | cons c cells ih =>
    rw [List.map_cons, List.sum_cons, List.map_cons, List.sum_cons, ih]
    ring

theorem sqrtModel_small (s : ℚ) (h0 : 0 ≤ s) (h1 : s ≤ 1 / 4) :
    ∃ r : ℚ, sqrtModel (Dbl.fin s) = Dbl.fin r ∧ r ≤ 1 / 2 := by
  have hneg : ¬ s < 0 := not_lt.mpr h0
  refine ⟨((Nat.sqrt (s.num.toNat * s.den) : ℕ) : ℚ) / (s.den : ℚ),
    by simp only [sqrtModel, hneg, if_false], ?_⟩
  have hd : (0 : ℚ) < (s.den : ℚ) := by exact_mod_cast s.den_pos
  have hnum : 0 ≤ s.num := Rat.num_nonneg.mpr h0
  have hcast : ((s.num.toNat : ℕ) : ℚ) = (s.num : ℚ) := by
    have : ((s.num.toNat : ℕ) : ℤ) = s.num := Int.toNat_of_nonneg hnum
    exact_mod_cast this
  have hs : (s.num : ℚ) / (s.den : ℚ) ≤ 1 / 4 := by
    rw [Rat.num_div_den]; exact h1
  have h4 : 4 * (s.num : ℚ) ≤ (s.den : ℚ) := by
    rw [div_le_iff₀ hd] at hs
    linarith
  have h4n : 4 * s.num.toNat ≤ s.den := by
    have : (4 : ℚ) * ((s.num.toNat : ℕ) : ℚ) ≤ (s.den : ℚ) := by rw [hcast]; exact h4
    exact_mod_cast this
  have hsq := Nat.sqrt_le (s.num.toNat * s.den)
  have h2 : 2 * Nat.sqrt (s.num.toNat * s.den) ≤ s.den := by
    by_contra hc
    have hc2 : s.den < 2 * Nat.sqrt (s.num.toNat * s.den) := not_le.mp hc
    have hc3 : s.den * s.den <
        (2 * Nat.sqrt (s.num.toNat * s.den)) * (2 * Nat.sqrt (s.num.toNat * s.den)) :=
      Nat.mul_self_lt_mul_self hc2
    have hc4 : 4 * (s.num.toNat * s.den) ≤ s.den * s.den := by
      calc 4 * (s.num.toNat * s.den) = (4 * s.num.toNat) * s.den := by ring
        _ ≤ s.den * s.den := Nat.mul_le_mul_right _ h4n
    have hc5 : (2 * Nat.sqrt (s.num.toNat * s.den)) * (2 * Nat.sqrt (s.num.toNat * s.den)) =
        4 * (Nat.sqrt (s.num.toNat * s.den) * Nat.sqrt (s.num.toNat * s.den)) := by ring
    omega
  rw [div_le_iff₀ hd]
  have : (2 : ℚ) * (Nat.sqrt (s.num.toNat * s.den) : ℚ) ≤ (s.den : ℚ) := by exact_mod_cast h2
  linarith

/-! ## C10: symmetric configurations -/

/-- C10, counterexample: two leaf cells of the finest level centred at
`(325/512, 355/512)` and `(115/512, 165/512)` with volume fractions `0.7` and
`0.25`, followed by their mirror images. The mesh and the field are symmetric
and the total fraction is positive, but the rounded sums do not cancel: both
centroid coordinates come out as `4740631186705785 * 2^-107`
(about `2.9e-17`), not 0. -/
theorem symmetric_centroid_counterexample :
    List.Perm (mirroredLeaves.map (fun c => (c.x, c.y, c.f)))
      (mirroredLeaves.map (fun c => (-c.x, -c.y, c.f))) ∧
    Dbl.gt (sumf mirroredLeaves) (Dbl.fin 0) = true ∧
    xcm1 mirroredLeaves = Dbl.fin (4740631186705785 / 2 ^ 107) ∧
    ycm2 mirroredLeaves = Dbl.fin (4740631186705785 / 2 ^ 107) ∧
    xcm1 mirroredLeaves ≠ Dbl.fin 0 := by
  refine ⟨?_, by decide!, by decide!, by decide!, by decide!⟩
  simp only [mirroredLeaves, leafAt, List.map, neg_neg]
  exact @List.perm_append_comm _ [_, _] [_, _]

/-- C10, amended: for every mesh of at most `512 * 512` cells (the leaves at
`MAX_LEVEL = 9`) whose centres lie in the domain (`|x| <= 5`, `|y| <= 5`, from
`L0 = 10` and the origin at `(-5, -5)`), that is unchanged, together with the
volume-fraction field, by the point reflection `(x, y, f) -> (-x, -y, f)`, and
whose total clamped fraction is positive: the centroid computed by
`logWriting` is finite and both of its coordinates are at most `2^-30` in
magnitude (in general not 0, since the sums are rounded), the displacement is
at most `1/2` (for a `sqrt` that maps the numbers between 0 and `1/4` to
numbers up to `1/2`), and at no step index does `logWriting` return the MOVED
verdict or write to standard output. -/
theorem symmetric_never_moved (sqrtD : Dbl → Dbl)
    (hs : ∀ s : ℚ, 0 ≤ s → s ≤ 1 / 4 → ∃ r : ℚ, sqrtD (Dbl.fin s) = Dbl.fin r ∧ r ≤ 1 / 2)
    (rho1 rho2 : Dbl) (pid i : Nat) (t : Dbl) (cells : List Cell)
    (hsym : List.Perm (cells.map (fun c => (c.x, c.y, c.f)))
      (cells.map (fun c => (-c.x, -c.y, c.f))))
    (hpos : Dbl.gt (sumf cells) (Dbl.fin 0) = true)
    (hbox : ∀ c ∈ cells, |c.x| ≤ 5 ∧ |c.y| ≤ 5)
    (hcount : cells.length ≤ (1 <<< MAX_LEVEL) * (1 <<< MAX_LEVEL)) :
    ∃ cx cy r : ℚ,
      xcm1 cells = Dbl.fin cx ∧ ycm2 cells = Dbl.fin cy ∧
      |cx| ≤ 1 / 2 ^ 30 ∧ |cy| ≤ 1 / 2 ^ 30 ∧
      dist sqrtD cells = Dbl.fin r ∧ r ≤ 1 / 2 ∧
      (logWriting sqrtD rho1 rho2 pid i t cells).2 ≠ EventStatus.returned 1 ∧
      stdoutOf (logWriting sqrtD rho1 rho2 pid i t cells).1 = [] := by
  have hlen : cells.length ≤ 262144 := by
    have e : (1 <<< MAX_LEVEL) * (1 <<< MAX_LEVEL) = 262144 := by decide
    rw [e] at hcount
    exact hcount
  -- the total fraction is a positive finite number
  have hfin : ∃ s : ℚ, 0 < s ∧ sumf cells = Dbl.fin s := by
    rcases foldl_add_nan_or_fin clampedFraction
      (fun c => by
        rcases clamp_unit_cases c.f with h | ⟨q, _, _, h⟩
        · exact Or.inl h
        · exact Or.inr ⟨q, h⟩) cells (Dbl.fin 0) (Or.inr ⟨0, rfl⟩) with h | ⟨q, h⟩
    · rw [sumf_eq, h] at hpos; cases hpos
    · rw [sumf_eq, h] at hpos
      exact ⟨q, by simpa [Dbl.gt, Dbl.lt] using hpos, by rw [sumf_eq, h]⟩
  obtain ⟨s, spos, hsf⟩ := hfin
  obtain ⟨hall, hsF, h1, h2⟩ := sums_of_sumf_fin cells s hsf
  have hF : 0 < fsum 0 (cells.map (fun c => (clampedFraction c).toQ)) := by
    rw [← hsF]; exact spos
  have hw : ∀ w ∈ cells.map (fun c => (clampedFraction c).toQ), 0 ≤ w := by
    intro w hw
    obtain ⟨c, hc, rfl⟩ := List.mem_map.mp hw
    obtain ⟨q, hq0, _, hq⟩ := hall c hc
    rw [hq]
    exact hq0
  have hwc : ∀ c ∈ cells, 0 ≤ (clampedFraction c).toQ :=
    fun c hc => hw _ (List.mem_map.mpr ⟨c, hc, rfl⟩)
  -- the exact sums of the rounded products vanish by symmetry
  have zx : (cells.map (fun c => Dbl.round53 ((clampedFraction c).toQ * c.x))).sum = 0 := by
    have h := (hsym.map (fun p : ℚ × ℚ × Dbl =>
      Dbl.round53 ((clamp p.2.2 (Dbl.fin 0) (Dbl.fin 1)).toQ * p.1))).sum_eq
    rw [List.map_map, List.map_map] at h
    have h3 : (cells.map (fun c => Dbl.round53 ((clampedFraction c).toQ * c.x))).sum =
        (cells.map (fun c => -(Dbl.round53 ((clampedFraction c).toQ * c.x)))).sum := by
      refine Eq.trans h ?_
      congr 1
      apply List.map_congr_left
      intro c _
      simp only [Function.comp, clampedFraction, mul_neg, Dbl.round53_neg]
    rw [sum_map_neg_eq] at h3
    linarith
  have zy : (cells.map (fun c => Dbl.round53 ((clampedFraction c).toQ * c.y))).sum = 0 := by
    have h := (hsym.map (fun p : ℚ × ℚ × Dbl =>
      Dbl.round53 ((clamp p.2.2 (Dbl.fin 0) (Dbl.fin 1)).toQ * p.2.1))).sum_eq
    rw [List.map_map, List.map_map] at h
    have h3 : (cells.map (fun c => Dbl.round53 ((clampedFraction c).toQ * c.y))).sum =
        (cells.map (fun c => -(Dbl.round53 ((clampedFraction c).toQ * c.y)))).sum := by
      refine Eq.trans h ?_
      congr 1
      apply List.map_congr_left
      intro c _
      simp only [Function.comp, clampedFraction, mul_neg, Dbl.round53_neg]
    rw [sum_map_neg_eq] at h3
    linarith
  -- the magnitudes of the rounded products
  have magn : ∀ v : Cell → ℚ, (∀ c ∈ cells, |v c| ≤ 5) →
      ((cells.map (fun c => Dbl.round53 ((clampedFraction c).toQ * v c))).map
        (fun p => |p|)).sum ≤
      5 * roundoffFactor * (cells.map (fun c => (clampedFraction c).toQ)).sum := by
    intro v hv
    rw [List.map_map, ← List.sum_map_mul_left]
    apply List.sum_le_sum
    intro c hc
    have a1 := abs_round53_le_factor ((clampedFraction c).toQ * v c)
    have a2 : |(clampedFraction c).toQ * v c| ≤ (clampedFraction c).toQ * 5 := by
      rw [abs_mul, abs_of_nonneg (hwc c hc)]
      exact mul_le_mul_of_nonneg_left (hv c hc) (hwc c hc)
    have a3 : roundoffFactor * |(clampedFraction c).toQ * v c| ≤
        roundoffFactor * ((clampedFraction c).toQ * 5) :=
      mul_le_mul_of_nonneg_left a2 (le_of_lt roundoffFactor_pos)
    simp only [Function.comp]
    linarith
  have lenw : (cells.map (fun c => (clampedFraction c).toQ)).length ≤ 262144 := by
    rw [List.length_map]; exact hlen
  have bx := centroid_coordinate_bound _ _ lenw (by rw [List.length_map]; exact hlen) hw zx
    (magn (fun c => c.x) (fun c hc => (hbox c hc).1)) hF
  have by2 := centroid_coordinate_bound _ _ lenw (by rw [List.length_map]; exact hlen) hw zy
    (magn (fun c => c.y) (fun c hc => (hbox c hc).2)) hF
  have sne : fsum 0 (cells.map (fun c => (clampedFraction c).toQ)) ≠ 0 := ne_of_gt hF
  have hx : xcm1 cells = Dbl.fin (Dbl.round53
      (fsum 0 (cells.map (fun c => Dbl.round53 ((clampedFraction c).toQ * c.x))) /
        fsum 0 (cells.map (fun c => (clampedFraction c).toQ)))) := by
    rw [xcm1, h1, hsf, hsF]
    simp only [Dbl.div, sne, if_false]
  have hy : ycm2 cells = Dbl.fin (Dbl.round53
      (fsum 0 (cells.map (fun c => Dbl.round53 ((clampedFraction c).toQ * c.y))) /
        fsum 0 (cells.map (fun c => (clampedFraction c).toQ)))) := by
    rw [ycm2, h2, hsf, hsF]
    simp only [Dbl.div, sne, if_false]
  obtain ⟨n0, n1⟩ := squared_norm_bound _ _ bx by2
  obtain ⟨r, hr, hr2⟩ := hs _ n0 n1
  have hd : dist sqrtD cells = Dbl.fin r := by
    rw [dist, hx, hy]
    simp only [sq, Dbl.mul_fin_fin, Dbl.add_fin_fin]
    exact hr
  have hge : Dbl.ge (Dbl.fin r) (Dbl.fin 1) = false := by
    have a : ¬ (1 < r) := by linarith
    have b : ¬ (1 = r) := by intro h; linarith
    simp [Dbl.ge, Dbl.le, Dbl.lt, Dbl.eq, a, b]
  have hn := not_moved_of_not_ge pid i t (kineticEnergy rho1 rho2 cells) (Dbl.fin r) hge
  refine ⟨_, _, r, hx, hy, bx, by2, hd, hr2, ?_, ?_⟩
  · rw [logWriting, hd]; exact hn.1
  · rw [logWriting, hd]; exact hn.2.1

/-- Witness of C10: two cells at `(1, 2)` and `(-1, -2)`, both with volume
fraction 1, at step 11. -/
theorem symmetric_never_moved_witness :
    (∀ s : ℚ, 0 ≤ s → s ≤ 1 / 4 → ∃ r : ℚ, sqrtModel (Dbl.fin s) = Dbl.fin r ∧ r ≤ 1 / 2) ∧
    List.Perm
      ([cellAt 1 2 (Dbl.fin 1) (Dbl.fin 0), cellAt (-1) (-2) (Dbl.fin 1) (Dbl.fin 0)].map
        (fun c => (c.x, c.y, c.f)))
      ([cellAt 1 2 (Dbl.fin 1) (Dbl.fin 0), cellAt (-1) (-2) (Dbl.fin 1) (Dbl.fin 0)].map
        (fun c => (-c.x, -c.y, c.f))) ∧
    Dbl.gt (sumf [cellAt 1 2 (Dbl.fin 1) (Dbl.fin 0), cellAt (-1) (-2) (Dbl.fin 1) (Dbl.fin 0)])
      (Dbl.fin 0) = true ∧
    (∀ c ∈ [cellAt 1 2 (Dbl.fin 1) (Dbl.fin 0), cellAt (-1) (-2) (Dbl.fin 1) (Dbl.fin 0)],
      |c.x| ≤ 5 ∧ |c.y| ≤ 5) ∧
    [cellAt 1 2 (Dbl.fin 1) (Dbl.fin 0), cellAt (-1) (-2) (Dbl.fin 1) (Dbl.fin 0)].length ≤
      (1 <<< MAX_LEVEL) * (1 <<< MAX_LEVEL) ∧
    (logWriting sqrtModel (Dbl.fin 4) (Dbl.fin 4) 0 11 (Dbl.fin 1)
      [cellAt 1 2 (Dbl.fin 1) (Dbl.fin 0), cellAt (-1) (-2) (Dbl.fin 1) (Dbl.fin 0)]).2 ≠
        EventStatus.returned 1 := by
  have hsym : List.Perm
      ([cellAt 1 2 (Dbl.fin 1) (Dbl.fin 0), cellAt (-1) (-2) (Dbl.fin 1) (Dbl.fin 0)].map
        (fun c => (c.x, c.y, c.f)))
      ([cellAt 1 2 (Dbl.fin 1) (Dbl.fin 0), cellAt (-1) (-2) (Dbl.fin 1) (Dbl.fin 0)].map
        (fun c => (-c.x, -c.y, c.f))) := by
    simp only [List.map, cellAt, neg_neg]
    exact List.Perm.swap _ _ _
  have hpos : Dbl.gt
      (sumf [cellAt 1 2 (Dbl.fin 1) (Dbl.fin 0), cellAt (-1) (-2) (Dbl.fin 1) (Dbl.fin 0)])
      (Dbl.fin 0) = true := by
    decide!
  have hbox : ∀ c ∈ [cellAt 1 2 (Dbl.fin 1) (Dbl.fin 0),
      cellAt (-1) (-2) (Dbl.fin 1) (Dbl.fin 0)], |c.x| ≤ 5 ∧ |c.y| ≤ 5 := by
    intro c hc
    simp only [List.mem_cons, List.mem_singleton, List.not_mem_nil, or_false] at hc
    rcases hc with rfl | rfl <;> simp only [cellAt] <;> constructor <;>
      rw [abs_le] <;> constructor <;> norm_num
  have hlen : [cellAt 1 2 (Dbl.fin 1) (Dbl.fin 0),
      cellAt (-1) (-2) (Dbl.fin 1) (Dbl.fin 0)].length ≤
        (1 <<< MAX_LEVEL) * (1 <<< MAX_LEVEL) := by
    decide
  obtain ⟨cx, cy, r, _, _, _, _, _, _, hw, _⟩ :=
    symmetric_never_moved sqrtModel sqrtModel_small (Dbl.fin 4) (Dbl.fin 4) 0 11 (Dbl.fin 1)
      [cellAt 1 2 (Dbl.fin 1) (Dbl.fin 0), cellAt (-1) (-2) (Dbl.fin 1) (Dbl.fin 0)]
      hsym hpos hbox hlen
  exact ⟨sqrtModel_small, hsym, hpos, hbox, hlen, hw⟩

/-! ## The snapshot schedule -/

theorem eventTimes_head (ts tm : Dbl) (fuel : Nat) (t : Dbl) :
    ∀ y ∈ (eventTimes ts tm fuel t).head?, y = t := by
  cases fuel with
  | zero => simp [eventTimes]
  | succ fuel =>
    rw [eventTimes]
    split <;> simp

/-- Every firing time is the previous one plus `tsnap`, as `t += tsnap` computes it. -/
theorem eventTimes_chain (ts tm : Dbl) (fuel : Nat) :
    ∀ t : Dbl, List.Chain' (fun a b => b = Dbl.add a ts) (eventTimes ts tm fuel t) := by
  induction fuel with
  | zero => intro t; simp [eventTimes]
  | succ fuel ih =>
    intro t
    rw [eventTimes]
    split
    · exact (ih _).cons' (eventTimes_head ts tm fuel _)
    · exact List.chain'_nil

/-- When the firings stop before the bound on their number is reached, a
larger bound gives the same times. -/
theorem eventTimes_fuel (ts tm : Dbl) (fuel : Nat) :
    ∀ (t : Dbl) (n : Nat), (eventTimes ts tm fuel t).length < fuel →
      eventTimes ts tm (fuel + n) t = eventTimes ts tm fuel t := by
  induction fuel with
  | zero => intro t n h; simp at h
  | succ fuel ih =>
    intro t n h
    rw [show fuel + 1 + n = (fuel + n) + 1 by omega, eventTimes, eventTimes]
    rw [eventTimes] at h
    split
    · next hle =>
      rw [if_pos hle] at h
      rw [ih _ n (by simpa using h)]
    · rfl

theorem chainB_chain (r : Dbl → Dbl → Bool) (l : List Dbl) (h : chainB r l = true) :
    List.Chain' (fun a b => r a b = true) l := by
  induction l with
  | nil => exact List.chain'_nil
  | cons a l ih =>
    cases l with
    | nil => exact List.chain'_singleton a
    | cons b rest =>
      simp only [chainB, Bool.and_eq_true] at h
      exact List.chain'_cons.mpr ⟨h.1, ih h.2⟩

theorem Dbl.lt_transitive (a b c : Dbl) (h1 : Dbl.lt a b = true) (h2 : Dbl.lt b c = true) :
    Dbl.lt a c = true := by
  cases a <;> cases b <;> cases c <;> simp_all [Dbl.lt]
  exact lt_trans h1 h2

theorem lexLt_irrefl (a : List Char) : lexLt a a = false := by
  induction a with
  | nil => rfl
  | cons x xs ih => simp [lexLt, ih]

theorem lexLt_cons_cons (x y : Char) (xs ys : List Char) :
    lexLt (x :: xs) (y :: ys) = true ↔
      x.toNat < y.toNat ∨ (x.toNat = y.toNat ∧ lexLt xs ys = true) := by
  by_cases h1 : x.toNat < y.toNat
  · simp [lexLt, h1]
  · by_cases h2 : x.toNat = y.toNat
    · simp [lexLt, h2]
    · simp [lexLt, h1, h2]

theorem lexLt_trans (a : List Char) :
    ∀ b c : List Char, lexLt a b = true → lexLt b c = true → lexLt a c = true := by
  induction a with
  | nil =>
    intro b c h1 h2
    cases b with
    | nil => simp [lexLt] at h1
    | cons y ys =>
      cases c with
      | nil => simp [lexLt] at h2
      | cons z zs => rfl
  | cons x xs ih =>
    intro b c h1 h2
    cases b with
    | nil => simp [lexLt] at h1
    | cons y ys =>
      cases c with
      | nil => simp [lexLt] at h2
      | cons z zs =>
        rw [lexLt_cons_cons] at h1 h2 ⊢
        rcases h1 with h1 | ⟨e1, l1⟩
        · rcases h2 with h2 | ⟨e2, _⟩
          · left; omega
          · left; omega
        · rcases h2 with h2 | ⟨e2, l2⟩
          · left; omega
          · right; exact ⟨by omega, ih ys zs l1 l2⟩

theorem shortlexLt_irrefl (a : List Char) : shortlexLt a a = false := by
  simp [shortlexLt, lexLt_irrefl]

theorem shortlexLt_trans (a b c : List Char) (h1 : shortlexLt a b = true)
    (h2 : shortlexLt b c = true) : shortlexLt a c = true := by
  simp only [shortlexLt, Bool.or_eq_true, decide_eq_true_eq, Bool.and_eq_true] at h1 h2 ⊢
  rcases h1 with h1 | ⟨e1, l1⟩
  · rcases h2 with h2 | ⟨e2, _⟩
    · left; omega
    · left; omega
  · rcases h2 with h2 | ⟨e2, l2⟩
    · left; omega
    · right; exact ⟨by omega, lexLt_trans a b c l1 l2⟩

set_option maxRecDepth 1000000 in
theorem tickName_step : ∀ k < 500, shortlexLt (tickName k) (tickName (k + 1)) = true := by
  decide

theorem tickName_mono (a b : Nat) (hab : a < b) (hb : b ≤ 500) :
    shortlexLt (tickName a) (tickName b) = true := by
  induction b with
  | zero => omega
  | succ n ih =>
    have hstep := tickName_step n (by omega)
    rcases Nat.lt_succ_iff_lt_or_eq.mp hab with h | h
    · exact shortlexLt_trans _ _ _ (ih h (by omega)) hstep
    · rw [h]; exact hstep

theorem scheduleCheck_spec (bound final : Dbl) (ts : List Dbl) :
    ∀ names : List (List Char), scheduleCheck bound final ts names = true →
      ts.map (fun t => (dumpFile t).data) = names ∧
      ts.all (fun t => Dbl.lt t bound) = true ∧
      chainB Dbl.lt ts = true ∧
      (ts ≠ [] → ts.getLast? = some final) := by
  induction ts with
  | nil =>
    intro names h
    cases names with
    | nil => simp [chainB]
    | cons n ns => simp [scheduleCheck] at h
  | cons t ts ih =>
    intro names h
    cases names with
    | nil => cases ts <;> simp [scheduleCheck] at h
    | cons n ns =>
      cases ts with
      | nil =>
        cases ns with
        | nil =>
          simp only [scheduleCheck, Bool.and_eq_true, decide_eq_true_eq] at h
          obtain ⟨⟨h1, h2⟩, h3⟩ := h
          subst h3
          simp [chainB, h1, h2]
        | cons n2 ns2 => simp [scheduleCheck] at h
      | cons t2 rest =>
        simp only [scheduleCheck, Bool.and_eq_true, decide_eq_true_eq] at h
        obtain ⟨⟨⟨h1, h2⟩, h3⟩, h4⟩ := h
        obtain ⟨i1, i2, i3, i4⟩ := ih ns h4
        refine ⟨?_, ?_, ?_, ?_⟩
        · rw [List.map_cons, h2, i1]
        · rw [List.all_cons, h1, i2]; rfl
        · simp only [chainB, h3, i3, Bool.and_self]
        · intro _
          rw [List.getLast?_cons_cons]
          exact i4 (by simp)

set_option maxRecDepth 1000000 in
theorem snapshotTimes_check :
    scheduleCheck tmax (Dbl.fin (7022800668930929 / 2 ^ 47)) snapshotTimes
      ((List.range 500).map tickName) = true := by
  decide!

theorem snapshotTimes_names :
    snapshotTimes.map (fun t => (dumpFile t).data) = (List.range 500).map tickName :=
  (scheduleCheck_spec _ _ _ _ snapshotTimes_check).1

theorem snapshotTimes_length : snapshotTimes.length = 500 := by
  have h := congrArg List.length snapshotTimes_names
  simpa using h

theorem snapshotTimes_increasing : chainB Dbl.lt snapshotTimes = true :=
  (scheduleCheck_spec _ _ _ _ snapshotTimes_check).2.2.1

theorem snapshotTimes_below_tmax : snapshotTimes.all (fun t => Dbl.lt t tmax) = true :=
  (scheduleCheck_spec _ _ _ _ snapshotTimes_check).2.1

theorem snapshotTimes_last :
    snapshotTimes.getLast? = some (Dbl.fin (7022800668930929 / 2 ^ 47)) := by
  apply (scheduleCheck_spec _ _ _ _ snapshotTimes_check).2.2.2
  intro h
  have := snapshotTimes_length
  rw [h] at this
  simp at this

theorem snapshotTimes_pairwise_lt :
    List.Pairwise (fun a b => Dbl.lt a b = true) snapshotTimes := by
  haveI : IsTrans Dbl (fun a b => Dbl.lt a b = true) := ⟨Dbl.lt_transitive⟩
  exact List.chain'_iff_pairwise.mp (chainB_chain _ _ snapshotTimes_increasing)

theorem snapshotTimes_pairwise_names :
    List.Pairwise (fun a b => shortlexLt (dumpFile a).data (dumpFile b).data = true)
      snapshotTimes := by
  have h : List.Pairwise (fun a b => shortlexLt a b = true)
      (snapshotTimes.map (fun t => (dumpFile t).data)) := by
    rw [snapshotTimes_names, List.pairwise_map]
    refine List.Pairwise.imp_of_mem ?_ (List.pairwise_lt_range 500)
    intro a b _ hb hab
    exact tickName_mono a b hab (by have := List.mem_range.mp hb; omega)
  exact List.pairwise_map.mp h

theorem tmax_not_mem_snapshotTimes : tmax ∉ snapshotTimes := by
  intro h
  have := List.all_eq_true.mp snapshotTimes_below_tmax tmax h
  simp [Dbl.lt, tmax] at this

/-! ## C7: snapshot schedule and identifiers -/

/-- C7, counterexample: the schedule has 500 snapshot times and `tmax` is not
one of them (the last is `49.90000000000044`, the next sum
`50.00000000000044` exceeds `tmax`); the third and fourth times, 0.2 and
`0.30000000000000004`, do not differ by `tsnap`; and the identifier
`intermediate/snapshot-10.0000` of the 101st time comes before the identifier
`intermediate/snapshot-2.0000` of the 21st time in `strcmp` order. -/
theorem snapshot_schedule_counterexample :
    snapshotTimes.length = 500 ∧ tmax ∉ snapshotTimes ∧
    snapshotTimes.getLast? = some (Dbl.fin (7022800668930929 / 2 ^ 47)) ∧
    Dbl.le (Dbl.add (Dbl.fin (7022800668930929 / 2 ^ 47)) tsnap) tmax = false ∧
    snapshotTimes.take 4 =
      [Dbl.fin 0, Dbl.fin (3602879701896397 / 2 ^ 55), Dbl.fin (3602879701896397 / 2 ^ 54),
       Dbl.fin (1351079888211149 / 2 ^ 52)] ∧
    tsnap = Dbl.fin (3602879701896397 / 2 ^ 55) ∧
    (1351079888211149 / 2 ^ 52 - 3602879701896397 / 2 ^ 54 : ℚ) ≠ 3602879701896397 / 2 ^ 55 ∧
    (snapshotTimes.map dumpFile)[20]? = some "intermediate/snapshot-2.0000" ∧
    (snapshotTimes.map dumpFile)[100]? = some "intermediate/snapshot-10.0000" ∧
    lexLt "intermediate/snapshot-10.0000".data "intermediate/snapshot-2.0000".data = true := by
  have names : ∀ (k : Nat) (s : String), k < 500 → tickName k = s.data →
      (snapshotTimes.map dumpFile)[k]? = some s := by
    intro k s hk hs
    have h1 : (snapshotTimes.map (fun t => (dumpFile t).data))[k]? = some (tickName k) := by
      rw [snapshotTimes_names, List.getElem?_map, List.getElem?_range hk]
      rfl
    rw [List.getElem?_map] at h1 ⊢
    cases ht : snapshotTimes[k]? with
    | none => rw [ht] at h1; cases h1
    | some t =>
      rw [ht] at h1
      simp only [Option.map_some', Option.some.injEq] at h1 ⊢
      exact String.ext (h1.trans hs)
  refine ⟨snapshotTimes_length, tmax_not_mem_snapshotTimes, snapshotTimes_last, by decide!,
    by decide!, by decide!, by norm_num, names 20 _ (by omega) (by decide),
    names 100 _ (by omega) (by decide), by decide⟩

/-- C7, amended: the snapshot times are 0 and then, as long as the time does
not exceed `tmax`, the previous time plus `tsnap` as `t += tsnap` computes it
in double arithmetic; since the double `1e-1` is larger than `1/10`, there are
500 such times, increasing, the last one `49.90000000000044`, and none at
`tmax`, whatever the bound on the number of firings beyond 501; successive
times differ by `tsnap` up to the rounding of the sum. The identifiers are
`intermediate/snapshot-0.0000`, `-0.1000`, ..., `-49.9000` (the decimal `k/10`
with four digits for the time of index `k`); identifiers of different
snapshot times are different; and the order of the identifiers follows the
order of their times when shorter identifiers come first and identifiers of
one length are compared as `strcmp` does. -/
theorem snapshot_schedule :
    (∀ n : Nat, eventTimes tsnap tmax (501 + n) (Dbl.fin 0) = snapshotTimes) ∧
    snapshotTimes.length = 500 ∧
    snapshotTimes.head? = some (Dbl.fin 0) ∧
    snapshotTimes.getLast? = some (Dbl.fin (7022800668930929 / 2 ^ 47)) ∧
    tmax ∉ snapshotTimes ∧
    List.Chain' (fun a b => b = Dbl.add a tsnap) snapshotTimes ∧
    List.Pairwise (fun a b => Dbl.lt a b = true) snapshotTimes ∧
    snapshotTimes.map (fun t => (dumpFile t).data) = (List.range 500).map tickName ∧
    List.Pairwise (fun a b => dumpFile a ≠ dumpFile b) snapshotTimes ∧
    List.Pairwise (fun a b => shortlexLt (dumpFile a).data (dumpFile b).data = true)
      snapshotTimes := by
  refine ⟨?_, snapshotTimes_length, by decide!, snapshotTimes_last,
    tmax_not_mem_snapshotTimes, eventTimes_chain _ _ _ _, snapshotTimes_pairwise_lt,
    snapshotTimes_names, ?_, snapshotTimes_pairwise_names⟩
  · intro n
    exact eventTimes_fuel tsnap tmax 501 (Dbl.fin 0) n
      (by have := snapshotTimes_length; unfold snapshotTimes at this; omega)
  · refine snapshotTimes_pairwise_names.imp ?_
    intro a b h e
    rw [e, shortlexLt_irrefl] at h
    cases h

end ActiveDrops
